import Mathlib

/-!
Verification of the stgv steganography codec (src/bit.rs, src/steg.rs,
src/exec.rs, src/cli.rs) via a shallow embedding.

Machine integers are modelled as `Nat`; channel bytes are `Nat` values that
the code keeps below 256.  Panicking operations (`BitMask::from` on a
non-power-of-two, out-of-bounds pixel access, `usize` underflow) are modelled
by `Option`, with `none` for the panic.  The mutable `&mut self` encoder state
is threaded explicitly.  The seeded Pcg64 generator of `Rsb` is modelled by
the (deterministic, seed-determined) sequence `draws : ℕ → ℕ` of values
returned by `gen_range(1..=max)` together with the current position `idx`.
-/

namespace Stgv

/-- One RGB pixel: three channel bytes (src: `image::Rgb`, 3 bytes per pixel). -/
structure Rgb where
  r : ℕ
  g : ℕ
  b : ℕ
deriving DecidableEq, Repr

/-- Channel access `pixel[idx]` (src/steg.rs line 97).  Only indices 0..2 are
reachable because chunks have at most 3 bits. -/
def Rgb.channel (p : Rgb) : ℕ → ℕ
  | 0 => p.r
  | 1 => p.g
  | 2 => p.b
  | _ => 0

/-- Channel update through `&mut pixel[idx]` (src/steg.rs line 97). -/
def Rgb.setChannel (p : Rgb) : ℕ → ℕ → Rgb
  | 0, v => { p with r := v }
  | 1, v => { p with g := v }
  | 2, v => { p with b := v }
  | _, _ => p

/-- The three channel bytes in storage order (src: `pixel.channels()`). -/
def pixelChannels (p : Rgb) : List ℕ := [p.r, p.g, p.b]

/-- An RGB image: width, height and the row-major pixel buffer
(src: `image::RgbImage`; pixel (x, y) is stored at index `y * width + x`). -/
structure RgbImage where
  width : ℕ
  height : ℕ
  pixels : List Rgb
deriving DecidableEq, Repr

/-- Bounds-checked pixel read (src: `RgbImage::get_pixel`, which panics out of
bounds; the panic is `none`). -/
def RgbImage.getPixel? (img : RgbImage) (x y : ℕ) : Option Rgb :=
  if x < img.width ∧ y < img.height then img.pixels[y * img.width + x]? else none

/-- Bit masks for setting or clearing bits in bytes (src/bit.rs lines 46-52). -/
inductive BitMask where
  | one
  | two
  | four
  | eight
deriving DecidableEq, Repr

/-- The numeric value of a mask (`BitMask as u8`). -/
def BitMask.toNat : BitMask → ℕ
  | .one => 1
  | .two => 2
  | .four => 4
  | .eight => 8

/-- `From<u8> for BitMask` (src/bit.rs lines 54-64).  The `other` arm panics
(`cannot create bitmask from val`), modelled by `none`. -/
def bitMaskFrom : ℕ → Option BitMask
  | 1 => some .one
  | 2 => some .two
  | 4 => some .four
  | 8 => some .eight
  | _ => none

/-- Lsb encode of one bit into a channel byte (src/bit.rs lines 101-107).
`!(BitMask::One as u8)` is the u8 complement, i.e. `255 ^^^ 1`. -/
def lsbEncodeBit (bit c : ℕ) : ℕ :=
  if bit = 0 then c &&& (255 ^^^ 1)
  else if bit = 1 then c ||| 1
  else c

/-- Lsb decode of one bit (src/bit.rs lines 109-111). -/
def lsbDecodeBit (c : ℕ) : ℕ := c &&& 1

/-- Rsb encode of one bit with a drawn mask (src/bit.rs lines 142-149). -/
def rsbEncodeBit (m : BitMask) (bit c : ℕ) : ℕ :=
  if bit = 0 then c &&& (255 ^^^ m.toNat)
  else if bit = 1 then c ||| m.toNat
  else c

/-- Rsb decode of one bit with a drawn mask (src/bit.rs lines 151-159). -/
def rsbDecodeBit (m : BitMask) (c : ℕ) : ℕ :=
  if 0 < c &&& m.toNat then 1 else 0

/-- The `Box<dyn BitEncode>` trait object: either the stateless `Lsb` or an
`Rsb` value carrying `max`, the seed-determined sequence of
`gen_range(1..=max)` outputs, and the generator position. -/
inductive BitEncode where
  | lsb : BitEncode
  | rsb (max : ℕ) (draws : ℕ → ℕ) (idx : ℕ) : BitEncode

/-- One call of `BitEncode::encode` (src/bit.rs lines 101-107 and 142-149).
For `Rsb`, `rand` draws `draws idx` and converts it through `BitMask::from`,
whose panic is `none`. -/
def encodeStep : BitEncode → ℕ → ℕ → Option (ℕ × BitEncode)
  | .lsb, bit, c => some (lsbEncodeBit bit c, .lsb)
  | .rsb mx d i, bit, c =>
    (bitMaskFrom (d i)).map fun m => (rsbEncodeBit m bit c, .rsb mx d (i + 1))

/-- One call of `BitEncode::decode` (src/bit.rs lines 109-111 and 151-159). -/
def decodeStep : BitEncode → ℕ → Option (ℕ × BitEncode)
  | .lsb, c => some (lsbDecodeBit c, .lsb)
  | .rsb mx d i, c =>
    (bitMaskFrom (d i)).map fun m => (rsbDecodeBit m c, .rsb mx d (i + 1))

/-- Supported bit distribution methods (src/bit.rs lines 8-14). -/
inductive BitDistribution where
  | sequential
  | linear (length : ℕ)
deriving DecidableEq, Repr

instance : Inhabited BitDistribution := ⟨.sequential⟩

/-- `BitEncoder` (src/bit.rs lines 75-81). -/
structure BitEncoder where
  encoder : BitEncode
  bit_dist : BitDistribution
  end_seq : Bool

/-- `BitEncoder::new` (src/bit.rs lines 84-90): default distribution is
`Sequential`, and `end_seq` is always `true`. -/
def BitEncoder.new (enc : BitEncode) (bd : Option BitDistribution) : BitEncoder :=
  { encoder := enc, bit_dist := bd.getD .sequential, end_seq := true }

/-- The terminator marker `b"$TGV"` (src/steg.rs line 34). -/
def END : List ℕ := [36, 84, 71, 86]

/-- The 8 binary digits of a byte, most significant first
(src: `format!("{:08b}", byte)` then `to_digit`). -/
def byteBits (b : ℕ) : List ℕ := (List.range 8).map fun i => b / 2 ^ (7 - i) % 2

/-- Bit expansion of a byte sequence (src/steg.rs lines 58-65 and 113-121). -/
def bytesToBits (msg : List ℕ) : List ℕ := (msg.map byteBits).flatten

/-- The 32-bit terminator pattern computed by `decode` (src/steg.rs 113-121). -/
def endBits : List ℕ := bytesToBits END

/-- `has_end` (src/steg.rs lines 176-182). -/
def has_end (bits endl : List ℕ) : Bool :=
  if bits.length < endl.length then false
  else decide (bits.drop (bits.length - endl.length) = endl)

/-- `binary_msg.chunks(3)` (src/steg.rs line 79). -/
def chunks3 : List ℕ → List (List ℕ)
  | [] => []
  | a :: b :: c :: rest => [a, b, c] :: chunks3 rest
  | l => [l]

/-- `bitstream.chunks(8)` (src/steg.rs line 160). -/
def chunks8 : List ℕ → List (List ℕ)
  | a :: b :: c :: d :: e :: f :: g :: h :: rest => [a, b, c, d, e, f, g, h] :: chunks8 rest
  | [] => []
  | l => [l]

/-- Modelled from the spec: the external `itertools_num::linspace` iterator —
"`n` evenly spaced floating-point sample points over the closed interval
[a, b] (first sample at a, last at b, uniform spacing)" — with exact rational
arithmetic in place of `f64`. -/
def linspaceQ (a b : ℚ) (n : ℕ) : List ℚ :=
  let step : ℚ := if n ≤ 1 then 0 else (b - a) / ((n : ℚ) - 1)
  (List.range n).map fun (i : ℕ) => a + (i : ℚ) * step

/-- `get_linspace` (src/steg.rs lines 185-189): floor each sample and cast to
`usize` (the cast saturates negatives to 0, as `Int.toNat` does). -/
def get_linspace (a b : ℚ) (n : ℕ) : List ℕ :=
  (linspaceQ a b n).map fun p => ⌊p⌋.toNat

/-- The coordinate chosen for visit `ctr` (src/steg.rs lines 80-94).  In the
`Linear` arm the iterator `linear_pixel_dist.next().unwrap()` has produced
exactly `ctr` earlier values, so it yields element `ctr` of the linspace
vector; an exhausted iterator panics (`none`). -/
def visitCoord (dist : BitDistribution) (w : ℕ) (lin : List ℕ) (ctr : ℕ) :
    Option (ℕ × ℕ) :=
  match dist with
  | .sequential => some (ctr % w, ctr / w)
  | .linear _ => lin[ctr]?.map fun p => (p % w, p / w)

/-- The inner per-pixel loop of encode (src/steg.rs lines 96-98): each bit of
the chunk is encoded into channel `idx` of the pixel. -/
def encodeChunkBits : BitEncode → ℕ → List ℕ → Rgb → Option (Rgb × BitEncode)
  | enc, _, [], px => some (px, enc)
  | enc, idx, bit :: rest, px =>
    match encodeStep enc bit (px.channel idx) with
    | none => none
    | some (v, enc') => encodeChunkBits enc' (idx + 1) rest (px.setChannel idx v)

/-- The main encode loop (src/steg.rs lines 79-99): for each chunk, pick the
visit coordinate, fetch the pixel with `get_pixel_mut` (bounds-checked panic
is `none`), encode the chunk into it and store it back. -/
def encodeVisitsGo (w h : ℕ) (dist : BitDistribution) (lin : List ℕ) :
    BitEncode → ℕ → List (List ℕ) → List Rgb → Option (List Rgb × BitEncode)
  | enc, _, [], pxs => some (pxs, enc)
  | enc, ctr, chunk :: rest, pxs =>
    match visitCoord dist w lin ctr with
    | none => none
    | some (x, y) =>
      if x < w ∧ y < h then
        match pxs[y * w + x]? with
        | none => none
        | some px =>
          match encodeChunkBits enc 0 chunk px with
          | none => none
          | some (px', enc') =>
            encodeVisitsGo w h dist lin enc' (ctr + 1) rest (pxs.set (y * w + x) px')
      else none

/-- `Steganography::encode for BitEncoder` (src/steg.rs lines 51-108).
The linspace vector is built unconditionally (lines 71-77); `(w*h) - 1` is a
`u32` subtraction, so `w*h = 0` is the underflow panic (`none`). -/
def encode (be : BitEncoder) (img : RgbImage) (msg : List ℕ) :
    Option (RgbImage × BitEncoder) :=
  if img.width * img.height = 0 then none
  else
    match encodeVisitsGo img.width img.height be.bit_dist
      (get_linspace 0 ((img.width * img.height - 1 : ℕ) : ℚ)
        (((bytesToBits (if be.end_seq then msg ++ END else msg)).length + 2) / 3))
      be.encoder 0
      (chunks3 (bytesToBits (if be.end_seq then msg ++ END else msg))) img.pixels with
    | none => none
    | some (pxs, enc') => some ({ img with pixels := pxs }, { be with encoder := enc' })

/-- The per-pixel channel loop of decode (src/steg.rs lines 126-131, 141-146):
before pushing each bit the loop tests `has_end` and, on a match, breaks out of
both loops — the `Bool` reports whether that labelled break fired. -/
def decodeChans (endl : List ℕ) :
    BitEncode → List ℕ → List ℕ → Option (List ℕ × BitEncode × Bool)
  | enc, acc, [] => some (acc, enc, false)
  | enc, acc, v :: rest =>
    if has_end acc endl then some (acc, enc, true)
    else
      match decodeStep enc v with
      | none => none
      | some (bit, enc') => decodeChans endl enc' (acc ++ [bit]) rest

/-- The `Sequential` decode scan (src/steg.rs lines 124-133): every pixel in
storage order. -/
def decodeSeqGo (endl : List ℕ) :
    BitEncode → List ℕ → List Rgb → Option (List ℕ × BitEncode)
  | enc, acc, [] => some (acc, enc)
  | enc, acc, px :: rest =>
    match decodeChans endl enc acc (pixelChannels px) with
    | none => none
    | some (acc', enc', stopped) =>
      if stopped then some (acc', enc') else decodeSeqGo endl enc' acc' rest

/-- The `Linear` decode scan (src/steg.rs lines 134-148): pixels at the
linspace indices, fetched with the panicking `get_pixel`. -/
def decodeLinGo (endl : List ℕ) (img : RgbImage) :
    BitEncode → List ℕ → List ℕ → Option (List ℕ × BitEncode)
  | enc, acc, [] => some (acc, enc)
  | enc, acc, p :: rest =>
    match img.getPixel? (p % img.width) (p / img.width) with
    | none => none
    | some px =>
      match decodeChans endl enc acc (pixelChannels px) with
      | none => none
      | some (acc', enc', stopped) =>
        if stopped then some (acc', enc') else decodeLinGo endl img enc' acc' rest

/-- `u8::from_str_radix(chunk_digits, 2)` (src/steg.rs lines 161-168): fails on
an empty chunk or a non-binary digit, otherwise folds the binary digits.  The
bitstream it is applied to only ever holds 0/1 values (each pushed bit comes
from a `decode` returning a masked bit), for which this model is exact. -/
def from_str_radix2 (chunk : List ℕ) : Option ℕ :=
  if chunk.isEmpty then none
  else if chunk.all (fun c => c < 2) then
    some (chunk.foldl (fun a c => a * 2 + c) 0)
  else none

/-- The byte-reassembly loop of decode (src/steg.rs lines 159-170), with the
`?` early return on a parse failure. -/
def bytesOfBits (bits : List ℕ) : Option (List ℕ) :=
  (chunks8 bits).mapM from_str_radix2

/-- `StegError` (src/lib.rs lines 11-21), restricted to the codec variants. -/
inductive StegError where
  | encodingNotFound
  | decoding (s : String)
deriving DecidableEq, Repr

/-- The `Result<Vec<u8>, StegError>` of decode. -/
inductive StegResult where
  | ok (msg : List ℕ)
  | err (e : StegError)
deriving DecidableEq, Repr

/-- The tail of decode after the scan loop (src/steg.rs lines 151-171): check
the terminator if expected, strip it, and reassemble bytes. -/
def decodeFinish (be : BitEncoder) (bitstream : List ℕ) (enc' : BitEncode) :
    Option (StegResult × BitEncoder) :=
  let be' := { be with encoder := enc' }
  if be.end_seq ∧ ¬has_end bitstream endBits then
    some (.err .encodingNotFound, be')
  else
    let bs := if be.end_seq then bitstream.take (bitstream.length - endBits.length)
              else bitstream
    match bytesOfBits bs with
    | none => some (.err (.decoding "reconstructing byte"), be')
    | some msg => some (.ok msg, be')

/-- `Steganography::decode for BitEncoder` (src/steg.rs lines 110-172).  In the
`Linear` arm `(w*h) - 1` is again the panicking `u32` subtraction. -/
def decode (be : BitEncoder) (img : RgbImage) : Option (StegResult × BitEncoder) :=
  let scan : Option (List ℕ × BitEncode) :=
    match be.bit_dist with
    | .sequential => decodeSeqGo endBits be.encoder [] img.pixels
    | .linear length =>
      if img.width * img.height = 0 then none
      else
        decodeLinGo endBits img be.encoder []
          (get_linspace 0 ((img.width * img.height - 1 : ℕ) : ℚ) length)
  match scan with
  | none => none
  | some (bitstream, enc') => decodeFinish be bitstream enc'

/-- `Steganography::max_bytes for BitEncoder` (src/steg.rs lines 47-49).  The
`usize` subtraction underflows (panics) when the image has fewer than 32
channel bytes. -/
def max_bytes (img : RgbImage) : Option ℕ :=
  if img.width * img.height * 3 < END.length * 8 then none
  else some ((img.width * img.height * 3 - END.length * 8) / 8)

/-- Outcome of the encode path of `exec::run`. -/
inductive RunResult where
  | ok (out : RgbImage)
  | capacityExceeded
deriving DecidableEq, Repr

/-- The encode path of `exec::run` (src/exec.rs lines 39 and 113-126): the
length check against `max_bytes` happens before `encode` is called, so an
oversized message is rejected before any mutation is attempted. -/
def run_encode (be : BitEncoder) (img : RgbImage) (msg : List ℕ) :
    Option (RunResult × BitEncoder) :=
  match max_bytes img with
  | none => none
  | some max_msg_len =>
    if msg.length > max_msg_len then some (.capacityExceeded, be)
    else
      match encode be img msg with
      | none => none
      | some (out, be') => some (.ok out, be')

/-- One round trip as the spec's round-trip property performs it: encode with a
fresh encoder, then decode the produced image with an equally fresh encoder
(same seed, same max, same distribution). -/
def roundTrip (be : BitEncoder) (img : RgbImage) (p : List ℕ) : Option StegResult :=
  match encode be img p with
  | none => none
  | some (img', _) => (decode be img').map fun r => r.1

/-- `CLI::validate` applied to `max_bit` (src/cli.rs lines 58-65). -/
def validateMaxBit (n : ℕ) : Bool := decide (1 ≤ n ∧ n ≤ 4)

/-- `StegMethod` (src/steg.rs lines 11-21). -/
inductive StegMethod where
  | leastSignificantBit
  | randomSignificantBit

/-- Encoder construction in `exec::run` (src/exec.rs lines 28-37): both arms go
through `BitEncoder::new`. -/
def mkEncoder (m : StegMethod) (maxBit : ℕ) (draws : ℕ → ℕ)
    (dist : BitDistribution) : BitEncoder :=
  match m with
  | .leastSignificantBit => BitEncoder.new .lsb (some dist)
  | .randomSignificantBit => BitEncoder.new (.rsb maxBit draws 0) (some dist)

/-! ### Linspace lemmas -/

/-- With a natural endpoint the floored linspace samples are pure natural
division: sample `i` is `⌊i · B / (n − 1)⌋`. -/
theorem get_linspace_nat (B n : ℕ) :
    get_linspace 0 (B : ℚ) n = (List.range n).map fun i => i * B / (n - 1) := by
  unfold get_linspace linspaceQ
  rw [List.map_map]
  apply List.map_congr_left
  intro i hi
  simp only [List.mem_range] at hi
  simp only [Function.comp_apply, zero_add, sub_zero]
  rcases Nat.lt_or_ge n 2 with h | h
  · interval_cases n
    · simp at hi
    · have hi0 : i = 0 := by omega
      subst hi0
      simp
  · have hn1 : ¬ n ≤ 1 := by omega
    simp only [if_neg hn1]
    have hcast : ((n : ℚ) - 1) = ((n - 1 : ℕ) : ℚ) := by
      have h1 : (1 : ℕ) ≤ n := by omega
      push_cast [h1]
      ring
    rw [hcast]
    have h2 : (i : ℚ) * ((B : ℚ) / ((n - 1 : ℕ) : ℚ)) = ((i * B : ℕ) : ℚ) / ((n - 1 : ℕ) : ℚ) := by
      push_cast
      ring
    rw [h2, Int.floor_toNat, Nat.floor_div_nat, Nat.floor_natCast]

theorem get_linspace_nat_getElem? (B n t : ℕ) :
    (get_linspace 0 (B : ℚ) n)[t]? =
      if t < n then some (t * B / (n - 1)) else none := by
  rw [get_linspace_nat]
  simp [List.getElem?_range, List.getElem?_map]
  split <;> simp_all [List.getElem?_range]

theorem get_linspace_nat_length (B n : ℕ) :
    (get_linspace 0 (B : ℚ) n).length = n := by
  rw [get_linspace_nat]
  simp

theorem get_linspace_nat_le (B n t : ℕ) (ht : t < n) : t * B / (n - 1) ≤ B := by
  rcases Nat.eq_zero_or_pos (n - 1) with h | h
  · simp [h]
  · calc t * B / (n - 1) ≤ (n - 1) * B / (n - 1) :=
          Nat.div_le_div_right (Nat.mul_le_mul_right _ (by omega))
    _ = B := Nat.mul_div_cancel_left _ h

theorem get_linspace_nat_strictMono (B n t : ℕ) (ht : t + 1 < n) (hB : n - 1 ≤ B) :
    t * B / (n - 1) < (t + 1) * B / (n - 1) := by
  have hd : 0 < n - 1 := by omega
  have h1 : t * B / (n - 1) + 1 = (t * B + (n - 1)) / (n - 1) := by
    rw [Nat.add_div_right _ hd]
  have h2 : (t * B + (n - 1)) / (n - 1) ≤ (t + 1) * B / (n - 1) := by
    apply Nat.div_le_div_right
    have : (t + 1) * B = t * B + B := by ring
    omega
  omega

/-! ### Chunk lemmas -/

theorem chunks3_flatten (l : List ℕ) : (chunks3 l).flatten = l := by
  induction l using chunks3.induct with
  | case1 => simp [chunks3]
  | case2 a b c rest ih => simp [chunks3, ih]
  | case3 l h1 h2 =>
    match l with
    | [] => exact absurd rfl h1
    | [a] => simp [chunks3]
    | [a, b] => simp [chunks3]
    | a :: b :: c :: r => exact absurd rfl (h2 a b c r)

theorem chunks3_length (l : List ℕ) : (chunks3 l).length = (l.length + 2) / 3 := by
  induction l using chunks3.induct with
  | case1 => simp [chunks3]
  | case2 a b c rest ih =>
    simp [chunks3, ih]
    omega
  | case3 l h1 h2 =>
    match l with
    | [] => exact absurd rfl h1
    | [a] => simp [chunks3]
    | [a, b] => simp [chunks3]
    | a :: b :: c :: r => exact absurd rfl (h2 a b c r)

theorem chunks3_getElem? (l : List ℕ) (t : ℕ) :
    (chunks3 l)[t]? = if 3 * t < l.length then some ((l.drop (3 * t)).take 3) else none := by
  induction l using chunks3.induct generalizing t with
  | case1 => simp [chunks3]
  | case2 a b c rest ih =>
    match t with
    | 0 => simp [chunks3]
    | t + 1 =>
      simp only [chunks3, List.getElem?_cons_succ, ih]
      have h3 : 3 * (t + 1) = 3 * t + 3 := by ring
      simp only [h3, List.length_cons, List.drop_succ_cons]
      by_cases h : 3 * t < rest.length
      · rw [if_pos h, if_pos (by omega)]
      · rw [if_neg h, if_neg (by omega)]
  | case3 l h1 h2 =>
    match l with
    | [] => exact absurd rfl h1
    | [a] =>
      match t with
      | 0 => simp [chunks3]
      | t + 1 =>
        simp only [chunks3, List.getElem?_cons_succ, List.getElem?_nil, List.length_cons,
          List.length_nil]
        rw [if_neg (by omega)]
    | [a, b] =>
      match t with
      | 0 => simp [chunks3]
      | t + 1 =>
        simp only [chunks3, List.getElem?_cons_succ, List.getElem?_nil, List.length_cons,
          List.length_nil]
        rw [if_neg (by omega)]
    | a :: b :: c :: r => exact absurd rfl (h2 a b c r)

theorem chunks8_cons8 (a1 a2 a3 a4 a5 a6 a7 a8 : ℕ) (rest : List ℕ) :
    chunks8 (a1 :: a2 :: a3 :: a4 :: a5 :: a6 :: a7 :: a8 :: rest) =
      [a1, a2, a3, a4, a5, a6, a7, a8] :: chunks8 rest := rfl

/-! ### Byte/bit expansion lemmas -/

theorem byteBits_def (b : ℕ) :
    byteBits b = [b / 128 % 2, b / 64 % 2, b / 32 % 2, b / 16 % 2,
      b / 8 % 2, b / 4 % 2, b / 2 % 2, b / 1 % 2] := rfl

theorem byteBits_length (b : ℕ) : (byteBits b).length = 8 := rfl

theorem byteBits_lt_two (b : ℕ) : ∀ x ∈ byteBits b, x < 2 := by
  rw [byteBits_def]
  intro x hx
  simp only [List.mem_cons, List.not_mem_nil, or_false] at hx
  rcases hx with h | h | h | h | h | h | h | h <;> subst h <;> exact Nat.mod_lt _ (by norm_num)

theorem bytesToBits_nil : bytesToBits [] = [] := rfl

theorem bytesToBits_cons (b : ℕ) (rest : List ℕ) :
    bytesToBits (b :: rest) = byteBits b ++ bytesToBits rest := by
  simp [bytesToBits]

theorem bytesToBits_append (xs ys : List ℕ) :
    bytesToBits (xs ++ ys) = bytesToBits xs ++ bytesToBits ys := by
  simp [bytesToBits]

theorem bytesToBits_length (msg : List ℕ) : (bytesToBits msg).length = 8 * msg.length := by
  induction msg with
  | nil => rfl
  | cons b rest ih =>
    rw [bytesToBits_cons]
    simp [byteBits_length, ih]
    omega

theorem bytesToBits_lt_two (msg : List ℕ) : ∀ x ∈ bytesToBits msg, x < 2 := by
  induction msg with
  | nil => simp [bytesToBits_nil]
  | cons b rest ih =>
    rw [bytesToBits_cons]
    intro x hx
    rcases List.mem_append.1 hx with h | h
    · exact byteBits_lt_two b x h
    · exact ih x h

theorem endBits_length : endBits.length = 32 := rfl

set_option maxRecDepth 10000 in
theorem from_str_radix2_byteBits : ∀ b < 256, from_str_radix2 (byteBits b) = some b := by decide

theorem chunks8_byteBits_append (b : ℕ) (rest : List ℕ) :
    chunks8 (byteBits b ++ rest) = byteBits b :: chunks8 rest := rfl

theorem chunks8_bytesToBits (msg : List ℕ) :
    chunks8 (bytesToBits msg) = msg.map byteBits := by
  induction msg with
  | nil => rfl
  | cons b rest ih =>
    rw [bytesToBits_cons, chunks8_byteBits_append, ih, List.map_cons]

theorem bytesOfBits_bytesToBits (msg : List ℕ) (h : ∀ b ∈ msg, b < 256) :
    bytesOfBits (bytesToBits msg) = some msg := by
  unfold bytesOfBits
  rw [chunks8_bytesToBits]
  induction msg with
  | nil => rfl
  | cons b rest ih =>
    simp only [List.map_cons, List.mapM_cons]
    rw [from_str_radix2_byteBits b (h b (by simp))]
    rw [ih (fun x hx => h x (by simp [hx]))]
    rfl

/-! ### has_end lemmas -/

theorem has_end_append_self (xs endl : List ℕ) : has_end (xs ++ endl) endl = true := by
  simp only [has_end, List.length_append]
  rw [if_neg (by omega)]
  simp only [Nat.add_sub_cancel, decide_eq_true_eq]
  rw [List.drop_left]

theorem has_end_true_iff (bits endl : List ℕ) :
    has_end bits endl = true ↔
      endl.length ≤ bits.length ∧ bits.drop (bits.length - endl.length) = endl := by
  simp only [has_end]
  split
  · simp
    omega
  · simp
    omega

/-! ### Bitwise mask lemmas -/

theorem land_land_of_land_eq_zero (c A B : ℕ) (h : A &&& B = 0) : c &&& A &&& B = 0 := by
  apply Nat.eq_of_testBit_eq
  intro i
  have hb : (A.testBit i && B.testBit i) = false := by
    rw [← Nat.testBit_land, h, Nat.zero_testBit]
  rw [Nat.land_assoc]
  simp only [Nat.testBit_land, hb, Nat.zero_testBit, Bool.and_false]

theorem lor_land_self (c m : ℕ) : (c ||| m) &&& m = m := by
  apply Nat.eq_of_testBit_eq
  intro i
  simp only [Nat.testBit_land, Nat.testBit_lor]
  cases c.testBit i <;> cases m.testBit i <;> rfl

theorem mask_compl_land (m : BitMask) : (255 ^^^ m.toNat) &&& m.toNat = 0 := by
  cases m <;> decide

theorem mask_pos (m : BitMask) : 0 < m.toNat := by
  cases m <;> decide

/-! ### Encoder state machinery -/

/-- The encoder state after `n` bit operations: `Lsb` is stateless, `Rsb` has
advanced its generator `n` times. -/
def encSteps : BitEncode → ℕ → BitEncode
  | .lsb, _ => .lsb
  | .rsb mx d i, n => .rsb mx d (i + n)

/-- The generator draws all convert to masks (no `BitMask::from` panic).  Holds
for `Lsb` unconditionally and for `Rsb` whenever every draw is in {1, 2, 4, 8}
— in particular for `max ≤ 2`, since `gen_range(1..=max)` then only yields 1
or 2. -/
def ValidEnc : BitEncode → Prop
  | .lsb => True
  | .rsb _ d _ => ∀ i, (bitMaskFrom (d i)).isSome = true

/-- The channel byte produced by one `encode` call (total version). -/
def encVal : BitEncode → ℕ → ℕ → ℕ
  | .lsb, bit, c => lsbEncodeBit bit c
  | .rsb _ d i, bit, c =>
    match bitMaskFrom (d i) with
    | some m => rsbEncodeBit m bit c
    | none => 0

/-- The bit produced by one `decode` call (total version). -/
def decVal : BitEncode → ℕ → ℕ
  | .lsb, c => lsbDecodeBit c
  | .rsb _ d i, c =>
    match bitMaskFrom (d i) with
    | some m => rsbDecodeBit m c
    | none => 0

theorem encSteps_zero (e : BitEncode) : encSteps e 0 = e := by
  cases e <;> simp [encSteps]

theorem encSteps_add (e : BitEncode) (a b : ℕ) :
    encSteps (encSteps e a) b = encSteps e (a + b) := by
  cases e <;> simp [encSteps]
  omega

theorem validEnc_encSteps (e : BitEncode) (n : ℕ) (h : ValidEnc e) :
    ValidEnc (encSteps e n) := by
  cases e with
  | lsb => trivial
  | rsb mx d i => exact h

theorem encodeStep_eq (e : BitEncode) (bit c : ℕ) (h : ValidEnc e) :
    encodeStep e bit c = some (encVal e bit c, encSteps e 1) := by
  cases e with
  | lsb => rfl
  | rsb mx d i =>
    obtain ⟨m, hm⟩ := Option.isSome_iff_exists.1 (h i)
    simp [encodeStep, encVal, encSteps, hm]

theorem decodeStep_eq (e : BitEncode) (c : ℕ) (h : ValidEnc e) :
    decodeStep e c = some (decVal e c, encSteps e 1) := by
  cases e with
  | lsb => rfl
  | rsb mx d i =>
    obtain ⟨m, hm⟩ := Option.isSome_iff_exists.1 (h i)
    simp [decodeStep, decVal, encSteps, hm]

theorem decVal_lt_two (e : BitEncode) (c : ℕ) : decVal e c < 2 := by
  cases e with
  | lsb =>
    have : c &&& 1 ≤ 1 := Nat.and_le_right
    simp only [decVal, lsbDecodeBit]
    omega
  | rsb mx d i =>
    simp only [decVal]
    rcases hm : bitMaskFrom (d i) with _ | m
    · norm_num
    · simp only [rsbDecodeBit]
      split <;> norm_num

/-- Per-bit round trip: decoding the byte produced by encoding a bit recovers
that bit, for either strategy, when encode and decode use the same state. -/
theorem decVal_encVal (e : BitEncode) (bit c : ℕ) (h : ValidEnc e) (hb : bit < 2) :
    decVal e (encVal e bit c) = bit := by
  have hmask0 : ∀ m : BitMask, ∀ x : ℕ, (x &&& (255 ^^^ m.toNat)) &&& m.toNat = 0 :=
    fun m x => land_land_of_land_eq_zero x _ _ (mask_compl_land m)
  cases e with
  | lsb =>
    interval_cases bit
    · show lsbDecodeBit (lsbEncodeBit 0 c) = 0
      rw [show lsbEncodeBit 0 c = c &&& (255 ^^^ 1) from rfl]
      exact land_land_of_land_eq_zero c _ _ (by decide)
    · show lsbDecodeBit (lsbEncodeBit 1 c) = 1
      rw [show lsbEncodeBit 1 c = c ||| 1 from rfl]
      exact lor_land_self c 1
  | rsb mx d i =>
    obtain ⟨m, hm⟩ := Option.isSome_iff_exists.1 (h i)
    simp only [decVal, encVal, hm]
    interval_cases bit
    · rw [show rsbEncodeBit m 0 c = c &&& (255 ^^^ m.toNat) from rfl]
      show (if 0 < (c &&& (255 ^^^ m.toNat)) &&& m.toNat then 1 else 0) = 0
      rw [hmask0 m c]
      norm_num
    · rw [show rsbEncodeBit m 1 c = c ||| m.toNat from rfl]
      show (if 0 < (c ||| m.toNat) &&& m.toNat then 1 else 0) = 1
      rw [lor_land_self c m.toNat]
      simp [mask_pos m]

/-! ### Chunk write characterization -/

/-- Pure version of the inner encode loop (the written pixel), defined for any
`ValidEnc` encoder. -/
def chunkWriteAux (enc : BitEncode) (idx : ℕ) : List ℕ → Rgb → Rgb
  | [], px => px
  | bit :: rest, px =>
    chunkWriteAux (encSteps enc 1) (idx + 1) rest
      (px.setChannel idx (encVal enc bit (px.channel idx)))

theorem encodeChunkBits_eq (chunk : List ℕ) :
    ∀ (enc : BitEncode) (idx : ℕ) (px : Rgb), ValidEnc enc →
      encodeChunkBits enc idx chunk px =
        some (chunkWriteAux enc idx chunk px, encSteps enc chunk.length) := by
  induction chunk with
  | nil =>
    intro enc idx px h
    simp [encodeChunkBits, chunkWriteAux, encSteps_zero]
  | cons bit rest ih =>
    intro enc idx px h
    rw [encodeChunkBits, encodeStep_eq enc bit _ h]
    show encodeChunkBits (encSteps enc 1) (idx + 1) rest
        (px.setChannel idx (encVal enc bit (px.channel idx))) = _
    rw [ih _ _ _ (validEnc_encSteps enc 1 h), encSteps_add]
    show some (chunkWriteAux enc idx (bit :: rest) px, encSteps enc (1 + rest.length)) = _
    rw [Nat.add_comm 1 rest.length]
    rfl

theorem channel_setChannel (px : Rgb) (i j v : ℕ) :
    (px.setChannel i v).channel j = if i = j ∧ j < 3 then v else px.channel j := by
  match i, j with
  | 0, 0 => simp [Rgb.setChannel, Rgb.channel]
  | 0, 1 => simp [Rgb.setChannel, Rgb.channel]
  | 0, 2 => simp [Rgb.setChannel, Rgb.channel]
  | 0, j + 3 => simp [Rgb.setChannel, Rgb.channel]
  | 1, 0 => simp [Rgb.setChannel, Rgb.channel]
  | 1, 1 => simp [Rgb.setChannel, Rgb.channel]
  | 1, 2 => simp [Rgb.setChannel, Rgb.channel]
  | 1, j + 3 => simp [Rgb.setChannel, Rgb.channel]
  | 2, 0 => simp [Rgb.setChannel, Rgb.channel]
  | 2, 1 => simp [Rgb.setChannel, Rgb.channel]
  | 2, 2 => simp [Rgb.setChannel, Rgb.channel]
  | 2, j + 3 => simp [Rgb.setChannel, Rgb.channel]
  | i + 3, 0 => simp [Rgb.setChannel, Rgb.channel]
  | i + 3, 1 => simp [Rgb.setChannel, Rgb.channel]
  | i + 3, 2 => simp [Rgb.setChannel, Rgb.channel]
  | i + 3, j + 3 => simp [Rgb.setChannel, Rgb.channel]

theorem chunkWriteAux_channel_frame (chunk : List ℕ) :
    ∀ (enc : BitEncode) (idx : ℕ) (px : Rgb) (r : ℕ),
      (r < idx ∨ idx + chunk.length ≤ r) →
      (chunkWriteAux enc idx chunk px).channel r = px.channel r := by
  induction chunk with
  | nil => intro enc idx px r _; rfl
  | cons bit rest ih =>
    intro enc idx px r hr
    rw [chunkWriteAux]
    rw [ih _ (idx + 1) _ r (by simp at hr ⊢; omega)]
    rw [channel_setChannel]
    rw [if_neg (by simp at hr ⊢; omega)]

theorem chunkWriteAux_channel_write (chunk : List ℕ) :
    ∀ (enc : BitEncode) (idx k bit : ℕ) (px : Rgb),
      chunk[k]? = some bit → idx + k < 3 →
      (chunkWriteAux enc idx chunk px).channel (idx + k) =
        encVal (encSteps enc k) bit (px.channel (idx + k)) := by
  induction chunk with
  | nil => intro enc idx k bit px hk; simp at hk
  | cons b rest ih =>
    intro enc idx k bit px hk h3
    match k with
    | 0 =>
      simp only [List.getElem?_cons_zero, Option.some_inj] at hk
      subst hk
      rw [chunkWriteAux]
      rw [chunkWriteAux_channel_frame rest _ (idx + 1) _ (idx + 0) (by omega)]
      rw [channel_setChannel]
      rw [if_pos (by omega)]
      rw [encSteps_zero, Nat.add_zero]
    | k + 1 =>
      simp only [List.getElem?_cons_succ] at hk
      rw [chunkWriteAux]
      have h' : idx + (k + 1) = (idx + 1) + k := by omega
      rw [h', ih (encSteps enc 1) (idx + 1) k bit _ hk (by omega)]
      rw [channel_setChannel, if_neg (by omega), encSteps_add]
      rw [Nat.add_comm 1 k]

/-! ### The encode walk -/

/-- Total number of bits in a chunk list. -/
def totalLen (chunks : List (List ℕ)) : ℕ := (chunks.map List.length).sum

/-- Number of bits consumed before visit `t`. -/
def lenBefore (chunks : List (List ℕ)) (t : ℕ) : ℕ := ((chunks.take t).map List.length).sum

theorem totalLen_chunks3 (l : List ℕ) : totalLen (chunks3 l) = l.length := by
  have := chunks3_flatten l
  calc totalLen (chunks3 l) = (chunks3 l).flatten.length := (List.length_flatten _).symm
  _ = l.length := by rw [this]

theorem lenBefore_zero (chunks : List (List ℕ)) : lenBefore chunks 0 = 0 := rfl

theorem lenBefore_cons_succ (c : List ℕ) (r : List (List ℕ)) (u : ℕ) :
    lenBefore (c :: r) (u + 1) = c.length + lenBefore r u := by
  simp [lenBefore]

theorem lenBefore_chunks3 (l : List ℕ) (t : ℕ) (ht : 3 * t < l.length) :
    lenBefore (chunks3 l) t = 3 * t := by
  induction t with
  | zero => rfl
  | succ u ih =>
    have hu : 3 * u < l.length := by omega
    have hget := chunks3_getElem? l u
    rw [if_pos hu] at hget
    have hchunks_len : u < (chunks3 l).length := by
      rw [chunks3_length]
      omega
    have htake : (chunks3 l).take (u + 1) = (chunks3 l).take u ++ [(l.drop (3 * u)).take 3] := by
      rw [List.take_succ, hget]
      rfl
    have hlen3 : ((l.drop (3 * u)).take 3).length = 3 := by
      simp
      omega
    unfold lenBefore
    rw [htake]
    simp only [List.map_append, List.sum_append, List.map_cons, List.map_nil, List.sum_cons,
      List.sum_nil]
    have hlb : (((chunks3 l).take u).map List.length).sum = lenBefore (chunks3 l) u := rfl
    rw [hlb, ih hu, hlen3]
    omega

/-- Master characterization of the encode loop: with in-bounds, strictly
increasing visit indices `ι`, the loop succeeds; the encoder advances by the
total bit count; pixels off the visit set are untouched; and the pixel of
visit `t` is the chunk-write of the original pixel with the encoder state as
of the bits consumed before visit `t`. -/
theorem encodeVisitsGo_spec (w h : ℕ) (dist : BitDistribution) (lin : List ℕ) (ι : ℕ → ℕ) :
    ∀ (chunks : List (List ℕ)) (enc : BitEncode) (s : ℕ) (pxs : List Rgb),
      ValidEnc enc → 0 < w →
      (∀ t, t < chunks.length → visitCoord dist w lin (s + t) = some (ι (s + t) % w, ι (s + t) / w)) →
      (∀ t, t < chunks.length → ι (s + t) / w < h ∧ ι (s + t) < pxs.length) →
      (∀ t u, t < u → u < chunks.length → ι (s + t) < ι (s + u)) →
      ∃ pxs' : List Rgb,
        encodeVisitsGo w h dist lin enc s chunks pxs = some (pxs', encSteps enc (totalLen chunks)) ∧
        pxs'.length = pxs.length ∧
        (∀ j, (∀ t, t < chunks.length → ι (s + t) ≠ j) → pxs'[j]? = pxs[j]?) ∧
        (∀ t chunk, chunks[t]? = some chunk →
          pxs'[ι (s + t)]? = (pxs[ι (s + t)]?).map
            (chunkWriteAux (encSteps enc (lenBefore chunks t)) 0 chunk)) := by
  intro chunks
  induction chunks with
  | nil =>
    intro enc s pxs hv hw _ _ _
    refine ⟨pxs, ?_, rfl, fun _ _ => rfl, fun t chunk ht => by simp at ht⟩
    simp [encodeVisitsGo, totalLen, encSteps_zero]
  | cons chunk rest ih =>
    intro enc s pxs hv hw hcoord hbound hmono
    have hs0 : s + 0 = s := Nat.add_zero s
    have hb0 := hbound 0 (by simp)
    rw [hs0] at hb0
    have hc0 := hcoord 0 (by simp)
    rw [hs0] at hc0
    have hx : ι s % w < w := Nat.mod_lt _ hw
    have hidx : ι s / w * w + ι s % w = ι s := by
      rw [Nat.mul_comm]
      exact Nat.div_add_mod _ _
    obtain ⟨px, hpx⟩ : ∃ px, pxs[ι s]? = some px :=
      ⟨_, List.getElem?_eq_getElem hb0.2⟩
    have hstep : encodeVisitsGo w h dist lin enc s (chunk :: rest) pxs =
        encodeVisitsGo w h dist lin (encSteps enc chunk.length) (s + 1) rest
          (pxs.set (ι s) (chunkWriteAux enc 0 chunk px)) := by
      rw [encodeVisitsGo, hc0]
      show (if ι s % w < w ∧ ι s / w < h then
        match pxs[ι s / w * w + ι s % w]? with
        | none => none
        | some px =>
          match encodeChunkBits enc 0 chunk px with
          | none => none
          | some (px', enc') =>
            encodeVisitsGo w h dist lin enc' (s + 1) rest (pxs.set (ι s / w * w + ι s % w) px')
        else none) = _
      rw [if_pos ⟨hx, hb0.1⟩, hidx, hpx]
      show (match encodeChunkBits enc 0 chunk px with
        | none => none
        | some (px', enc') =>
          encodeVisitsGo w h dist lin enc' (s + 1) rest (pxs.set (ι s) px')) = _
      rw [encodeChunkBits_eq chunk enc 0 px hv]
    have hvb : ValidEnc (encSteps enc chunk.length) := validEnc_encSteps _ _ hv
    have hcoord' : ∀ t, t < rest.length →
        visitCoord dist w lin (s + 1 + t) = some (ι (s + 1 + t) % w, ι (s + 1 + t) / w) := by
      intro t htl
      have := hcoord (t + 1) (by simp; omega)
      rwa [show s + (t + 1) = s + 1 + t from by omega] at this
    have hbound' : ∀ t, t < rest.length →
        ι (s + 1 + t) / w < h ∧ ι (s + 1 + t) < (pxs.set (ι s) (chunkWriteAux enc 0 chunk px)).length := by
      intro t htl
      have := hbound (t + 1) (by simp; omega)
      rw [show s + (t + 1) = s + 1 + t from by omega] at this
      simpa using this
    have hmono' : ∀ t u, t < u → u < rest.length → ι (s + 1 + t) < ι (s + 1 + u) := by
      intro t u htu hu
      have := hmono (t + 1) (u + 1) (by omega) (by simp; omega)
      rwa [show s + (t + 1) = s + 1 + t from by omega,
        show s + (u + 1) = s + 1 + u from by omega] at this
    obtain ⟨pxs'', heq, hlen, hframe, hwrite⟩ :=
      ih (encSteps enc chunk.length) (s + 1) (pxs.set (ι s) (chunkWriteAux enc 0 chunk px))
        hvb hw hcoord' hbound' hmono'
    refine ⟨pxs'', ?_, ?_, ?_, ?_⟩
    · rw [hstep, heq, encSteps_add]
      have : chunk.length + totalLen rest = totalLen (chunk :: rest) := by
        simp [totalLen]
      rw [this]
    · rw [hlen]
      simp
    · intro j hj
      have hj0 : ι s ≠ j := by
        have := hj 0 (by simp)
        rwa [hs0] at this
      have hrest : pxs''[j]? = (pxs.set (ι s) (chunkWriteAux enc 0 chunk px))[j]? := by
        apply hframe j
        intro t htl
        have := hj (t + 1) (by simp; omega)
        rwa [show s + (t + 1) = s + 1 + t from by omega] at this
      rw [hrest, List.getElem?_set_ne hj0]
    · intro t chunk' ht
      match t, ht with
      | 0, ht =>
        have hchunk : chunk = chunk' := by
          simp only [List.getElem?_cons_zero, Option.some_inj] at ht
          exact ht
        subst hchunk
        have hne : ∀ u, u < rest.length → ι (s + 1 + u) ≠ ι s := by
          intro u hu
          have := hmono 0 (u + 1) (by omega) (by simp; omega)
          rw [hs0, show s + (u + 1) = s + 1 + u from by omega] at this
          omega
        have h1 : pxs''[ι (s + 0)]? = (pxs.set (ι s) (chunkWriteAux enc 0 chunk px))[ι s]? := by
          rw [hs0]
          exact hframe (ι s) hne
        rw [h1, List.getElem?_set_eq_of_lt _ hb0.2, hs0, hpx]
        rw [lenBefore_zero, encSteps_zero]
        rfl
      | u + 1, ht =>
        have ht' : rest[u]? = some chunk' := by
          simpa using ht
        have hu : u < rest.length := by
          by_contra hc
          rw [List.getElem?_eq_none (by omega)] at ht'
          exact Option.noConfusion ht'
        have hw' := hwrite u chunk' ht'
        rw [show s + 1 + u = s + (u + 1) from by omega] at hw'
        have hne : ι s ≠ ι (s + (u + 1)) := by
          have := hmono 0 (u + 1) (by omega) (by simp; omega)
          rw [hs0] at this
          omega
        rw [hw', List.getElem?_set_ne hne, encSteps_add, lenBefore_cons_succ]

/-! ### The decode scan -/

/-- Pure decoded-bit sequence of a channel-value stream (the bits decode would
produce if it never stopped). -/
def decodedBits (enc : BitEncode) : List ℕ → List ℕ
  | [] => []
  | v :: rest => decVal enc v :: decodedBits (encSteps enc 1) rest

/-- Proof-layer flattening of the nested decode loops: one stream of channel
values, with the `has_end` test before each extracted bit. -/
def decodeStreamGo (endl : List ℕ) : BitEncode → List ℕ → List ℕ → Option (List ℕ × BitEncode)
  | enc, acc, [] => some (acc, enc)
  | enc, acc, v :: rest =>
    if has_end acc endl then some (acc, enc)
    else
      match decodeStep enc v with
      | none => none
      | some (bit, enc') => decodeStreamGo endl enc' (acc ++ [bit]) rest

theorem decodedBits_length (vals : List ℕ) : ∀ enc, (decodedBits enc vals).length = vals.length := by
  induction vals with
  | nil => intro enc; rfl
  | cons v rest ih => intro enc; simp [decodedBits, ih]

theorem decodedBits_getElem? (vals : List ℕ) :
    ∀ (enc : BitEncode) (k : ℕ),
      (decodedBits enc vals)[k]? = (vals[k]?).map fun v => decVal (encSteps enc k) v := by
  induction vals with
  | nil => intro enc k; rfl
  | cons v rest ih =>
    intro enc k
    match k with
    | 0 => simp [decodedBits, encSteps_zero]
    | k + 1 =>
      simp only [decodedBits, List.getElem?_cons_succ, ih (encSteps enc 1) k, encSteps_add]
      rw [Nat.add_comm 1 k]

theorem decodedBits_cons (enc : BitEncode) (v : ℕ) (rest : List ℕ) :
    decodedBits enc (v :: rest) = decVal enc v :: decodedBits (encSteps enc 1) rest := rfl

/-- The nested-loop channel scan agrees with the flattened stream scan. -/
theorem decodeStreamGo_append_chans (endl chans : List ℕ) :
    ∀ (rest : List ℕ) (enc : BitEncode) (acc : List ℕ),
      decodeStreamGo endl enc acc (chans ++ rest) =
        match decodeChans endl enc acc chans with
        | none => none
        | some (acc', enc', true) => some (acc', enc')
        | some (acc', enc', false) => decodeStreamGo endl enc' acc' rest := by
  induction chans with
  | nil =>
    intro rest enc acc
    rfl
  | cons v cs ih =>
    intro rest enc acc
    show decodeStreamGo endl enc acc (v :: (cs ++ rest)) = _
    rw [decodeStreamGo, decodeChans]
    by_cases hend : has_end acc endl
    · rw [if_pos hend, if_pos hend]
    · rw [if_neg hend, if_neg hend]
      rcases hds : decodeStep enc v with _ | ⟨bit, enc'⟩
      · rfl
      · exact ih rest enc' (acc ++ [bit])

theorem decodeSeqGo_eq_stream (pxList : List Rgb) :
    ∀ (endl : List ℕ) (enc : BitEncode) (acc : List ℕ),
      decodeSeqGo endl enc acc pxList =
        decodeStreamGo endl enc acc ((pxList.map pixelChannels).flatten) := by
  induction pxList with
  | nil => intro endl enc acc; rfl
  | cons px rest ih =>
    intro endl enc acc
    rw [decodeSeqGo]
    rw [show ((px :: rest).map pixelChannels).flatten =
      pixelChannels px ++ (rest.map pixelChannels).flatten from by simp]
    rw [decodeStreamGo_append_chans]
    rcases hdc : decodeChans endl enc acc (pixelChannels px) with _ | ⟨acc', enc', stopped⟩
    · rfl
    · cases stopped
      · simp only []
        exact ih endl enc' acc'
      · rfl

theorem decodeLinGo_eq_stream (lin : List ℕ) :
    ∀ (endl : List ℕ) (img : RgbImage) (enc : BitEncode) (acc : List ℕ),
      (∀ p ∈ lin, (img.getPixel? (p % img.width) (p / img.width)).isSome = true) →
      decodeLinGo endl img enc acc lin =
        decodeStreamGo endl enc acc
          (((lin.filterMap fun p => img.getPixel? (p % img.width) (p / img.width)).map
            pixelChannels).flatten) := by
  induction lin with
  | nil => intro endl img enc acc _; rfl
  | cons p rest ih =>
    intro endl img enc acc hfetch
    obtain ⟨px, hpx⟩ := Option.isSome_iff_exists.1 (hfetch p (by simp))
    rw [decodeLinGo, hpx]
    show (match decodeChans endl enc acc (pixelChannels px) with
      | none => none
      | some (acc', enc', stopped) =>
        if stopped = true then some (acc', enc') else decodeLinGo endl img enc' acc' rest) = _
    rw [show (p :: rest).filterMap (fun p => img.getPixel? (p % img.width) (p / img.width)) =
      px :: rest.filterMap (fun p => img.getPixel? (p % img.width) (p / img.width)) from by
        rw [List.filterMap_cons, hpx]]
    rw [show ((px :: rest.filterMap fun p => img.getPixel? (p % img.width) (p / img.width)).map
        pixelChannels).flatten =
      pixelChannels px ++ ((rest.filterMap fun p =>
        img.getPixel? (p % img.width) (p / img.width)).map pixelChannels).flatten from by simp]
    rw [decodeStreamGo_append_chans]
    rcases hdc : decodeChans endl enc acc (pixelChannels px) with _ | ⟨acc', enc', stopped⟩
    · rfl
    · cases stopped
      · simp only []
        exact ih endl img enc' acc' (fun q hq => hfetch q (by simp [hq]))
      · rfl

/-- The stream scan stops exactly at the first prefix whose trailing bits match
the terminator. -/
theorem decodeStreamGo_first_end (endl : List ℕ) :
    ∀ (vals : List ℕ) (enc : BitEncode) (acc : List ℕ) (K : ℕ),
      ValidEnc enc → K ≤ vals.length →
      has_end (acc ++ decodedBits enc (vals.take K)) endl = true →
      (∀ k < K, has_end (acc ++ decodedBits enc (vals.take k)) endl = false) →
      decodeStreamGo endl enc acc vals =
        some (acc ++ decodedBits enc (vals.take K), encSteps enc K) := by
  intro vals
  induction vals with
  | nil =>
    intro enc acc K hv hK hend _
    have hK0 : K = 0 := by simpa using hK
    subst hK0
    simp only [List.take_nil, decodedBits, List.append_nil] at hend ⊢
    rw [decodeStreamGo, encSteps_zero]
  | cons v rest ih =>
    intro enc acc K hv hK hend hno
    match K with
    | 0 =>
      simp only [List.take_zero, decodedBits, List.append_nil] at hend
      rw [decodeStreamGo, if_pos hend, encSteps_zero]
      simp [decodedBits]
    | K + 1 =>
      have hacc : has_end acc endl = false := by
        have := hno 0 (by omega)
        simpa [decodedBits] using this
      rw [decodeStreamGo, if_neg (by simp [hacc]), decodeStep_eq enc v hv]
      show decodeStreamGo endl (encSteps enc 1) (acc ++ [decVal enc v]) rest = _
      have hsplit : ∀ l : List ℕ,
          acc ++ decodedBits enc (v :: l) = (acc ++ [decVal enc v]) ++ decodedBits (encSteps enc 1) l := by
        intro l
        simp [decodedBits]
      rw [ih (encSteps enc 1) (acc ++ [decVal enc v]) K (validEnc_encSteps enc 1 hv)
        (by simpa using hK)
        (by rw [← hsplit (rest.take K)]
            simpa [List.take_succ_cons] using hend)
        (by intro k hk
            rw [← hsplit (rest.take k)]
            have := hno (k + 1) (by omega)
            simpa [List.take_succ_cons] using this)]
      rw [← hsplit (rest.take K), encSteps_add, Nat.add_comm 1 K, List.take_succ_cons]

/-- If no prefix ever matches the terminator, the stream scan exhausts the
stream and returns every decoded bit. -/
theorem decodeStreamGo_no_end (endl : List ℕ) :
    ∀ (vals : List ℕ) (enc : BitEncode) (acc : List ℕ),
      ValidEnc enc →
      (∀ k ≤ vals.length, has_end (acc ++ decodedBits enc (vals.take k)) endl = false) →
      decodeStreamGo endl enc acc vals =
        some (acc ++ decodedBits enc vals, encSteps enc vals.length) := by
  intro vals
  induction vals with
  | nil =>
    intro enc acc hv _
    simp only [decodedBits, List.append_nil, List.length_nil]
    rw [decodeStreamGo, encSteps_zero]
  | cons v rest ih =>
    intro enc acc hv hno
    have hacc : has_end acc endl = false := by
      have := hno 0 (by omega)
      simpa [decodedBits] using this
    rw [decodeStreamGo, if_neg (by simp [hacc]), decodeStep_eq enc v hv]
    show decodeStreamGo endl (encSteps enc 1) (acc ++ [decVal enc v]) rest = _
    have hsplit : ∀ l : List ℕ,
        acc ++ decodedBits enc (v :: l) = (acc ++ [decVal enc v]) ++ decodedBits (encSteps enc 1) l := by
      intro l
      simp [decodedBits]
    rw [ih (encSteps enc 1) (acc ++ [decVal enc v]) (validEnc_encSteps enc 1 hv)
      (by intro k hk
          rw [← hsplit (rest.take k)]
          have := hno (k + 1) (by simpa using hk)
          simpa [List.take_succ_cons] using this)]
    rw [← hsplit rest, encSteps_add, Nat.add_comm 1 rest.length]
    rfl

/-- Position `3·t + r` of the flattened channel stream is channel `r` of pixel
`t`. -/
theorem flatten_channels_getElem? (P : List Rgb) :
    ∀ (t r : ℕ), r < 3 →
      ((P.map pixelChannels).flatten)[3 * t + r]? = (P[t]?).map fun px => px.channel r := by
  induction P with
  | nil => intro t r _; simp
  | cons px rest ih =>
    intro t r hr
    rw [show ((px :: rest).map pixelChannels).flatten =
      pixelChannels px ++ (rest.map pixelChannels).flatten from by simp]
    match t with
    | 0 =>
      simp only [Nat.mul_zero, Nat.zero_add]
      have hexp : pixelChannels px ++ (rest.map pixelChannels).flatten =
          px.r :: px.g :: px.b :: (rest.map pixelChannels).flatten := rfl
      rw [hexp]
      interval_cases r <;> simp [Rgb.channel]
    | t + 1 =>
      have hidx : 3 * (t + 1) + r = (3 * t + r) + 3 := by ring
      rw [hidx]
      rw [show (pixelChannels px ++ (rest.map pixelChannels).flatten)[3 * t + r + 3]? =
        ((rest.map pixelChannels).flatten)[3 * t + r]? from by
          rw [List.getElem?_append_right (by simp [pixelChannels])]
          simp [pixelChannels]]
      rw [ih t r hr, List.getElem?_cons_succ]

theorem flatten_channels_length (P : List Rgb) :
    ((P.map pixelChannels).flatten).length = 3 * P.length := by
  induction P with
  | nil => rfl
  | cons px rest ih =>
    simp only [List.map_cons, List.flatten_cons, List.length_append, ih, List.length_cons]
    simp [pixelChannels]
    omega

/-! ### Top-level encode characterization -/

/-- The flat pixel index of visit `t`: raster position `t` for the sequential
distribution, the `t`-th floored linspace sample for the linear one. -/
def visitIdx (dist : BitDistribution) (wh n t : ℕ) : ℕ :=
  match dist with
  | .sequential => t
  | .linear _ => t * (wh - 1) / (n - 1)

theorem linspace_idx_strictMono (B n : ℕ) (hB : n - 1 ≤ B) :
    ∀ t u, t < u → u < n → t * B / (n - 1) < u * B / (n - 1) := by
  intro t u htu hu
  induction u with
  | zero => omega
  | succ v ihv =>
    rcases Nat.lt_or_ge t v with h | h
    · exact Nat.lt_trans (ihv h (by omega)) (get_linspace_nat_strictMono B n v hu hB)
    · have htv : t = v := by omega
      subst htv
      exact get_linspace_nat_strictMono B n t hu hB

theorem getPixel?_mod_div (img : RgbImage) (p : ℕ) (hw : 0 < img.width)
    (hp : p < img.width * img.height) :
    img.getPixel? (p % img.width) (p / img.width) = img.pixels[p]? := by
  unfold RgbImage.getPixel?
  rw [if_pos ⟨Nat.mod_lt _ hw, by
    rw [Nat.div_lt_iff_lt_mul hw]
    calc p < img.width * img.height := hp
    _ = img.height * img.width := Nat.mul_comm _ _⟩]
  congr 1
  rw [Nat.mul_comm]
  exact Nat.div_add_mod _ _

theorem filterMap_getElem?_all_isSome (f : ℕ → Option Rgb) (l : List ℕ)
    (hall : ∀ p ∈ l, (f p).isSome = true) :
    ∀ t : ℕ, (l.filterMap f)[t]? = (l[t]?).bind f := by
  induction l with
  | nil => intro t; simp
  | cons p rest ih =>
    intro t
    obtain ⟨px, hpx⟩ := Option.isSome_iff_exists.1 (hall p (by simp))
    rw [List.filterMap_cons, hpx]
    match t with
    | 0 => simp [hpx]
    | t + 1 =>
      simp only [List.getElem?_cons_succ]
      exact ih (fun q hq => hall q (by simp [hq])) t

theorem filterMap_length_all_isSome (f : ℕ → Option Rgb) (l : List ℕ)
    (hall : ∀ p ∈ l, (f p).isSome = true) :
    (l.filterMap f).length = l.length := by
  induction l with
  | nil => rfl
  | cons p rest ih =>
    obtain ⟨px, hpx⟩ := Option.isSome_iff_exists.1 (hall p (by simp))
    rw [List.filterMap_cons, hpx]
    simp only [List.length_cons]
    rw [ih (fun q hq => hall q (by simp [hq]))]

theorem decodedBits_take (vals : List ℕ) :
    ∀ (enc : BitEncode) (k : ℕ), decodedBits enc (vals.take k) = (decodedBits enc vals).take k := by
  induction vals with
  | nil => intro enc k; simp [decodedBits]
  | cons v rest ih =>
    intro enc k
    match k with
    | 0 => simp [decodedBits]
    | k + 1 =>
      rw [List.take_succ_cons, decodedBits_cons, decodedBits_cons, ih (encSteps enc 1) k]
      rfl

/-- If the first `bits.length` stream values are the strategy-encodings of
`bits` (with aligned states), then the decoded prefixes recover `bits`. -/
theorem decodedBits_take_eq (enc : BitEncode) (vals bits : List ℕ)
    (hv : ValidEnc enc) (hb2 : ∀ b ∈ bits, b < 2) (_hlen : bits.length ≤ vals.length)
    (hval : ∀ k b, bits[k]? = some b → ∃ c, vals[k]? = some (encVal (encSteps enc k) b c)) :
    ∀ k, k ≤ bits.length → decodedBits enc (vals.take k) = bits.take k := by
  intro k hk
  rw [decodedBits_take]
  apply List.ext_getElem?
  intro i
  by_cases hik : i < k
  · have hib : i < bits.length := by omega
    obtain ⟨b, hb⟩ : ∃ b, bits[i]? = some b := ⟨_, List.getElem?_eq_getElem hib⟩
    obtain ⟨c, hc⟩ := hval i b hb
    simp only [List.getElem?_take, if_pos hik]
    rw [decodedBits_getElem?, hc, hb]
    show some (decVal (encSteps enc i) (encVal (encSteps enc i) b c)) = some b
    rw [decVal_encVal _ b c (validEnc_encSteps enc i hv)
      (hb2 b (List.getElem?_mem hb))]
  · have h1 : ((decodedBits enc vals).take k)[i]? = none := by
      apply List.getElem?_eq_none
      simp [decodedBits_length]
      omega
    have h2 : (bits.take k)[i]? = none := by
      apply List.getElem?_eq_none
      simp
      omega
    rw [h1, h2]

/-- The bitstream encode expands: the message, the terminator appended when
`end_seq` is set. -/
def encBits (be : BitEncoder) (msg : List ℕ) : List ℕ :=
  bytesToBits (if be.end_seq then msg ++ END else msg)

/-- The number of pixel visits of an encode run (`linspace_length` in the
source, one visit per 3 bits). -/
def encChunkCount (be : BitEncoder) (msg : List ℕ) : ℕ := ((encBits be msg).length + 2) / 3

/-- Top-level characterization of `encode`: under capacity, a valid encoder
and positive dimensions, encode succeeds; the result keeps the dimensions, the
encoder advances by the bitstream length, unvisited pixels are unchanged, and
visit `t` holds the chunk-write of the original pixel. -/
theorem encode_spec (be : BitEncoder) (img : RgbImage) (msg : List ℕ)
    (hv : ValidEnc be.encoder) (hw : 0 < img.width) (hh : 0 < img.height)
    (hpxlen : img.pixels.length = img.width * img.height)
    (hcap : (encBits be msg).length ≤ 3 * (img.width * img.height)) :
    ∃ pxs' : List Rgb,
      encode be img msg =
        some ({ img with pixels := pxs' },
          { be with encoder := encSteps be.encoder (encBits be msg).length }) ∧
      pxs'.length = img.pixels.length ∧
      (∀ j, (∀ t, t < encChunkCount be msg →
          visitIdx be.bit_dist (img.width * img.height) (encChunkCount be msg) t ≠ j) →
        pxs'[j]? = img.pixels[j]?) ∧
      (∀ t chunk, (chunks3 (encBits be msg))[t]? = some chunk →
        pxs'[visitIdx be.bit_dist (img.width * img.height) (encChunkCount be msg) t]? =
          (img.pixels[visitIdx be.bit_dist (img.width * img.height) (encChunkCount be msg) t]?).map
            (chunkWriteAux (encSteps be.encoder (3 * t)) 0 chunk)) := by
  have hw' : 0 < img.width := hw
  have hL3 : (encBits be msg).length ≤ 3 * (img.width * img.height) := hcap
  have hwh : ¬ img.width * img.height = 0 := by positivity
  have hCwh : encChunkCount be msg ≤ img.width * img.height := by
    unfold encChunkCount
    omega
  have hchunksLen : (chunks3 (encBits be msg)).length = encChunkCount be msg :=
    chunks3_length (encBits be msg)
  have hιbound : ∀ t, t < encChunkCount be msg →
      visitIdx be.bit_dist (img.width * img.height) (encChunkCount be msg) t <
        img.width * img.height := by
    intro t ht
    match hd : be.bit_dist with
    | .sequential => exact Nat.lt_of_lt_of_le ht hCwh
    | .linear len =>
      show t * (img.width * img.height - 1) / (encChunkCount be msg - 1) < img.width * img.height
      have := get_linspace_nat_le (img.width * img.height - 1) (encChunkCount be msg) t ht
      omega
  have hιmono : ∀ t u, t < u → u < encChunkCount be msg →
      visitIdx be.bit_dist (img.width * img.height) (encChunkCount be msg) t <
        visitIdx be.bit_dist (img.width * img.height) (encChunkCount be msg) u := by
    intro t u htu hu
    match hd : be.bit_dist with
    | .sequential => exact htu
    | .linear len =>
      exact linspace_idx_strictMono (img.width * img.height - 1) (encChunkCount be msg)
        (by omega) t u htu hu
  have hcoord : ∀ t, t < (chunks3 (encBits be msg)).length →
      visitCoord be.bit_dist img.width
        (get_linspace 0 ((img.width * img.height - 1 : ℕ) : ℚ) (encChunkCount be msg)) (0 + t) =
      some (visitIdx be.bit_dist (img.width * img.height) (encChunkCount be msg) (0 + t) % img.width,
        visitIdx be.bit_dist (img.width * img.height) (encChunkCount be msg) (0 + t) / img.width) := by
    intro t ht
    rw [hchunksLen] at ht
    rw [Nat.zero_add]
    match hd : be.bit_dist with
    | .sequential => rfl
    | .linear len =>
      show ((get_linspace 0 ((img.width * img.height - 1 : ℕ) : ℚ) (encChunkCount be msg))[t]?).map _ = _
      rw [get_linspace_nat_getElem?, if_pos ht]
      rfl
  have hbound : ∀ t, t < (chunks3 (encBits be msg)).length →
      visitIdx be.bit_dist (img.width * img.height) (encChunkCount be msg) (0 + t) / img.width <
        img.height ∧
      visitIdx be.bit_dist (img.width * img.height) (encChunkCount be msg) (0 + t) <
        img.pixels.length := by
    intro t ht
    rw [hchunksLen] at ht
    rw [Nat.zero_add, hpxlen]
    refine ⟨?_, hιbound t ht⟩
    rw [Nat.div_lt_iff_lt_mul hw']
    calc visitIdx be.bit_dist (img.width * img.height) (encChunkCount be msg) t
        < img.width * img.height := hιbound t ht
    _ = img.height * img.width := Nat.mul_comm _ _
  have hmono : ∀ t u, t < u → u < (chunks3 (encBits be msg)).length →
      visitIdx be.bit_dist (img.width * img.height) (encChunkCount be msg) (0 + t) <
        visitIdx be.bit_dist (img.width * img.height) (encChunkCount be msg) (0 + u) := by
    intro t u htu hu
    rw [hchunksLen] at hu
    rw [Nat.zero_add, Nat.zero_add]
    exact hιmono t u htu hu
  obtain ⟨pxs', heq, hlen, hframe, hwrite⟩ :=
    encodeVisitsGo_spec img.width img.height be.bit_dist
      (get_linspace 0 ((img.width * img.height - 1 : ℕ) : ℚ) (encChunkCount be msg))
      (visitIdx be.bit_dist (img.width * img.height) (encChunkCount be msg))
      (chunks3 (encBits be msg)) be.encoder 0 img.pixels hv hw' hcoord hbound hmono
  refine ⟨pxs', ?_, hlen, ?_, ?_⟩
  · show (if img.width * img.height = 0 then none else
      match encodeVisitsGo img.width img.height be.bit_dist
        (get_linspace 0 ((img.width * img.height - 1 : ℕ) : ℚ) (encChunkCount be msg))
        be.encoder 0 (chunks3 (encBits be msg)) img.pixels with
      | none => none
      | some (pxs, enc') =>
        some (({ img with pixels := pxs } : RgbImage), ({ be with encoder := enc' } : BitEncoder))) = _
    rw [if_neg hwh, heq]
    show some ({ img with pixels := pxs' },
      { be with encoder := encSteps be.encoder (totalLen (chunks3 (encBits be msg))) }) = _
    rw [totalLen_chunks3]
  · intro j hj
    apply hframe j
    intro t ht
    rw [Nat.zero_add]
    rw [hchunksLen] at ht
    exact hj t ht
  · intro t chunk ht
    have h3t : 3 * t < (encBits be msg).length := by
      have hg := chunks3_getElem? (encBits be msg) t
      rw [ht] at hg
      by_contra hc
      rw [if_neg (by omega)] at hg
      exact Option.noConfusion hg
    have hres := hwrite t chunk ht
    rw [Nat.zero_add, lenBefore_chunks3 (encBits be msg) t h3t] at hres
    exact hres

/-! ### Top-level decode characterization -/

theorem decode_seq_eq (be : BitEncoder) (img : RgbImage) (hd : be.bit_dist = .sequential) :
    decode be img =
      match decodeStreamGo endBits be.encoder [] ((img.pixels.map pixelChannels).flatten) with
      | none => none
      | some (bitstream, enc') => decodeFinish be bitstream enc' := by
  show (match (match be.bit_dist with
    | .sequential => decodeSeqGo endBits be.encoder [] img.pixels
    | .linear length =>
      if img.width * img.height = 0 then none
      else
        decodeLinGo endBits img be.encoder []
          (get_linspace 0 ((img.width * img.height - 1 : ℕ) : ℚ) length)) with
    | none => none
    | some (bitstream, enc') => decodeFinish be bitstream enc') = _
  rw [hd, decodeSeqGo_eq_stream]

theorem get_linspace_mem_le (B n p : ℕ) (hp : p ∈ get_linspace 0 (B : ℚ) n) : p ≤ B := by
  rw [get_linspace_nat] at hp
  simp only [List.mem_map, List.mem_range] at hp
  obtain ⟨t, ht, rfl⟩ := hp
  exact get_linspace_nat_le B n t ht

theorem decode_lin_eq (be : BitEncoder) (img : RgbImage) (len : ℕ)
    (hd : be.bit_dist = .linear len) (hw : 0 < img.width) (hh : 0 < img.height)
    (hpxlen : img.pixels.length = img.width * img.height) :
    decode be img =
      match decodeStreamGo endBits be.encoder []
        ((((get_linspace 0 ((img.width * img.height - 1 : ℕ) : ℚ) len).filterMap
          (fun p => img.getPixel? (p % img.width) (p / img.width))).map pixelChannels).flatten) with
      | none => none
      | some (bitstream, enc') => decodeFinish be bitstream enc' := by
  have hwh : 0 < img.width * img.height := by positivity
  have hfetch : ∀ p ∈ get_linspace 0 ((img.width * img.height - 1 : ℕ) : ℚ) len,
      (img.getPixel? (p % img.width) (p / img.width)).isSome = true := by
    intro p hp
    have hple := get_linspace_mem_le (img.width * img.height - 1) len p hp
    rw [getPixel?_mod_div img p hw (by omega)]
    rw [List.getElem?_eq_getElem (by omega)]
    rfl
  show (match (match be.bit_dist with
    | .sequential => decodeSeqGo endBits be.encoder [] img.pixels
    | .linear length =>
      if img.width * img.height = 0 then none
      else
        decodeLinGo endBits img be.encoder []
          (get_linspace 0 ((img.width * img.height - 1 : ℕ) : ℚ) length)) with
    | none => none
    | some (bitstream, enc') => decodeFinish be bitstream enc') = _
  rw [hd]
  show (match (if img.width * img.height = 0 then none
      else decodeLinGo endBits img be.encoder []
        (get_linspace 0 ((img.width * img.height - 1 : ℕ) : ℚ) len)) with
    | none => none
    | some (bitstream, enc') => decodeFinish be bitstream enc') = _
  rw [if_neg (by omega), decodeLinGo_eq_stream _ _ _ _ _ hfetch]

theorem decodedBits_all_lt_two (vals : List ℕ) :
    ∀ enc, ∀ x ∈ decodedBits enc vals, x < 2 := by
  induction vals with
  | nil => intro enc x hx; simp [decodedBits] at hx
  | cons v rest ih =>
    intro enc x hx
    rw [decodedBits_cons] at hx
    rcases List.mem_cons.1 hx with h | h
    · subst h
      exact decVal_lt_two enc v
    · exact ih (encSteps enc 1) x h

theorem bytesOfBits_all_lt_two (bits : List ℕ) (h : ∀ b ∈ bits, b < 2) :
    ∃ msg, bytesOfBits bits = some msg ∧ msg.length = (bits.length + 7) / 8 := by
  unfold bytesOfBits
  induction bits using chunks8.induct with
  | case2 => exact ⟨[], rfl, rfl⟩
  | case1 a1 a2 a3 a4 a5 a6 a7 a8 rest ih =>
    have hrest : ∀ b ∈ rest, b < 2 := fun b hb => h b (by simp [hb])
    obtain ⟨msg, hmsg, hmlen⟩ := ih hrest
    have hchunk : from_str_radix2 [a1, a2, a3, a4, a5, a6, a7, a8] =
        some ((([a1, a2, a3, a4, a5, a6, a7, a8] : List ℕ).foldl (fun a c => a * 2 + c) 0)) := by
      rw [from_str_radix2, if_neg (by simp)]
      rw [if_pos]
      simp only [List.all_cons, List.all_nil, Bool.and_true, Bool.and_eq_true, decide_eq_true_eq]
      refine ⟨h a1 (by simp), h a2 (by simp), h a3 (by simp), h a4 (by simp),
        h a5 (by simp), h a6 (by simp), h a7 (by simp), h a8 (by simp)⟩
    rw [chunks8_cons8]
    refine ⟨(([a1, a2, a3, a4, a5, a6, a7, a8] : List ℕ).foldl (fun a c => a * 2 + c) 0) :: msg,
      ?_, ?_⟩
    · rw [List.mapM_cons, hchunk, hmsg]
      rfl
    · simp only [List.length_cons, hmlen]
      omega
  | case3 l h1 h2 =>
    have hne : l ≠ [] := fun hl => h2 hl
    have hlen : l.length ≤ 7 := by
      match l, h1 with
      | [], _ => simp
      | [a], _ => simp
      | [a, b], _ => simp
      | [a, b, c], _ => simp
      | [a, b, c, d], _ => simp
      | [a, b, c, d, e], _ => simp
      | [a, b, c, d, e, f], _ => simp
      | [a, b, c, d, e, f, g], _ => simp
      | a :: b :: c :: d :: e :: f :: g :: x :: r, h1 => exact absurd rfl (h1 a b c d e f g x r)
    have hchunks : chunks8 l = [l] := by
      match l, h1, h2 with
      | [], _, h2 => exact absurd rfl h2
      | [a], _, _ => rfl
      | [a, b], _, _ => rfl
      | [a, b, c], _, _ => rfl
      | [a, b, c, d], _, _ => rfl
      | [a, b, c, d, e], _, _ => rfl
      | [a, b, c, d, e, f], _, _ => rfl
      | [a, b, c, d, e, f, g], _, _ => rfl
      | a :: b :: c :: d :: e :: f :: g :: x :: r, h1, _ => exact absurd rfl (h1 a b c d e f g x r)
    rw [hchunks]
    have hchunk : from_str_radix2 l = some (l.foldl (fun a c => a * 2 + c) 0) := by
      rw [from_str_radix2, if_neg (by simpa using hne), if_pos]
      rw [List.all_eq_true]
      intro x hx
      simpa using h x hx
    refine ⟨[l.foldl (fun a c => a * 2 + c) 0], ?_, ?_⟩
    · rw [List.mapM_cons, hchunk]
      rfl
    · have : 1 ≤ l.length := by
        cases l
        · exact absurd rfl hne
        · simp
      simp only [List.length_cons, List.length_nil]
      omega

/-- General decode outcome when the scan matches the terminator first at
position `K`: decode succeeds and returns the bytes reassembled from the
first `K − 32` decoded bits. -/
theorem decode_first_end_ok (be : BitEncoder) (img : RgbImage) (vals : List ℕ) (K : ℕ)
    (hstream : decode be img =
      match decodeStreamGo endBits be.encoder [] vals with
      | none => none
      | some (bitstream, enc') => decodeFinish be bitstream enc')
    (hv : ValidEnc be.encoder) (hes : be.end_seq = true) (hK : K ≤ vals.length)
    (hend : has_end (decodedBits be.encoder (vals.take K)) endBits = true)
    (hno : ∀ k < K, has_end (decodedBits be.encoder (vals.take k)) endBits = false) :
    ∃ msg, decode be img = some (.ok msg, { be with encoder := encSteps be.encoder K }) ∧
      bytesOfBits ((decodedBits be.encoder (vals.take K)).take (K - 32)) = some msg ∧
      msg.length = (K - 32 + 7) / 8 ∧ 32 ≤ K := by
  have hrun := decodeStreamGo_first_end endBits vals be.encoder [] K hv hK
    (by simpa using hend) (by intro k hk; simpa using hno k hk)
  simp only [List.nil_append] at hrun
  have hbslen : (decodedBits be.encoder (vals.take K)).length = K := by
    rw [decodedBits_length]
    simp
    omega
  have hK32 : 32 ≤ K := by
    have := (has_end_true_iff _ _).1 hend
    rw [hbslen] at this
    have h32 : endBits.length = 32 := endBits_length
    omega
  obtain ⟨msg, hmsg, hmlen⟩ := bytesOfBits_all_lt_two
    ((decodedBits be.encoder (vals.take K)).take (K - 32))
    (fun b hb => decodedBits_all_lt_two _ _ b (List.mem_of_mem_take hb))
  refine ⟨msg, ?_, ?_, ?_, hK32⟩
  · rw [hstream, hrun]
    show decodeFinish be (decodedBits be.encoder (vals.take K)) (encSteps be.encoder K) = _
    rw [decodeFinish]
    rw [if_neg (by simp [hes, hend])]
    simp only [hes, if_pos, endBits_length, hbslen]
    rw [hmsg]
  · exact hmsg
  · rw [hmlen]
    have htl : ((decodedBits be.encoder (vals.take K)).take (K - 32)).length = K - 32 := by
      simp [hbslen]
    rw [htl]

/-- General decode outcome when no prefix of the scan ever matches the
terminator: decode fails with `EncodingNotFound`. -/
theorem decode_no_end_err (be : BitEncoder) (img : RgbImage) (vals : List ℕ)
    (hstream : decode be img =
      match decodeStreamGo endBits be.encoder [] vals with
      | none => none
      | some (bitstream, enc') => decodeFinish be bitstream enc')
    (hv : ValidEnc be.encoder) (hes : be.end_seq = true)
    (hno : ∀ k ≤ vals.length, has_end (decodedBits be.encoder (vals.take k)) endBits = false) :
    decode be img = some (.err .encodingNotFound,
      { be with encoder := encSteps be.encoder vals.length }) := by
  have hrun := decodeStreamGo_no_end endBits vals be.encoder [] hv
    (by intro k hk; simpa using hno k hk)
  simp only [List.nil_append] at hrun
  have hfull : has_end (decodedBits be.encoder vals) endBits = false := by
    have := hno vals.length (by omega)
    simpa using this
  rw [hstream, hrun]
  show decodeFinish be (decodedBits be.encoder vals) (encSteps be.encoder vals.length) = _
  rw [decodeFinish, if_pos (by simp [hes, hfull])]

/-! ### Round trip -/

/-- If the first `|bits(p ++ END)|` values of the decode scan carry exactly the
strategy-encodings of those bits with aligned states, and no proper prefix of
the bitstream already ends in the terminator, decode recovers `p`. -/
theorem decode_encoded_stream (be : BitEncoder) (img' : RgbImage) (p vals : List ℕ)
    (hv : ValidEnc be.encoder) (hes : be.end_seq = true)
    (hbytes : ∀ b ∈ p, b < 256)
    (hstream : decode be img' =
      match decodeStreamGo endBits be.encoder [] vals with
      | none => none
      | some (bs, e) => decodeFinish be bs e)
    (hlenv : (bytesToBits (p ++ END)).length ≤ vals.length)
    (hval : ∀ k b, (bytesToBits (p ++ END))[k]? = some b →
      ∃ c, vals[k]? = some (encVal (encSteps be.encoder k) b c))
    (hearly : ∀ k < (bytesToBits (p ++ END)).length,
      has_end ((bytesToBits (p ++ END)).take k) endBits = false) :
    ∃ e, decode be img' = some (.ok p, e) := by
  have hb2 : ∀ b ∈ bytesToBits (p ++ END), b < 2 := bytesToBits_lt_two _
  have htake := decodedBits_take_eq be.encoder vals (bytesToBits (p ++ END)) hv hb2 hlenv hval
  have hsplit : bytesToBits (p ++ END) = bytesToBits p ++ endBits := bytesToBits_append p END
  have hLlen : (bytesToBits (p ++ END)).length = (bytesToBits p).length + 32 := by
    rw [hsplit]
    simp [endBits_length]
  have hend : has_end (decodedBits be.encoder (vals.take (bytesToBits (p ++ END)).length))
      endBits = true := by
    rw [htake _ (le_refl _), List.take_length, hsplit]
    exact has_end_append_self _ _
  have hno : ∀ k < (bytesToBits (p ++ END)).length,
      has_end (decodedBits be.encoder (vals.take k)) endBits = false := by
    intro k hk
    rw [htake k (by omega)]
    exact hearly k hk
  obtain ⟨msg, hdec, hmsg, _, _⟩ := decode_first_end_ok be img' vals
    (bytesToBits (p ++ END)).length hstream hv hes hlenv hend hno
  have hmsgp : msg = p := by
    rw [htake _ (le_refl _), List.take_length] at hmsg
    rw [show (bytesToBits (p ++ END)).length - 32 = (bytesToBits p).length from by omega] at hmsg
    rw [hsplit, List.take_left] at hmsg
    rw [bytesOfBits_bytesToBits p hbytes] at hmsg
    exact (Option.some_inj.1 hmsg).symm
  subst hmsgp
  exact ⟨_, hdec⟩

/-- **C1 (amended).** Round trip: for payloads whose expanded bitstream
(payload then terminator) has no proper prefix already ending in the
terminator pattern, and whose bit length (terminator included) fits the
image's 3·W·H channel capacity, decoding the encoded image returns exactly
the payload — for both strategies (`Lsb`, and `Rsb` with the same seed, i.e.
the same draw sequence, and the same max on both sides) and both
distributions (decode given the computed linear visit count). -/
theorem C1_roundtrip_amended (be : BitEncoder) (img : RgbImage) (p : List ℕ)
    (hv : ValidEnc be.encoder) (hes : be.end_seq = true)
    (hw : 0 < img.width) (hh : 0 < img.height)
    (hpxlen : img.pixels.length = img.width * img.height)
    (hbytes : ∀ b ∈ p, b < 256)
    (hcap : (bytesToBits (p ++ END)).length ≤ 3 * (img.width * img.height))
    (hdist : be.bit_dist = .sequential ∨ be.bit_dist = .linear (encChunkCount be p))
    (hearly : ∀ k < (bytesToBits (p ++ END)).length,
      has_end ((bytesToBits (p ++ END)).take k) endBits = false) :
    roundTrip be img p = some (.ok p) := by
  have hEB : encBits be p = bytesToBits (p ++ END) := by
    rw [encBits, hes]
    rfl
  have hcap' : (encBits be p).length ≤ 3 * (img.width * img.height) := by rw [hEB]; exact hcap
  obtain ⟨pxs', henc, hlen, hframe, hwrite⟩ := encode_spec be img p hv hw hh hpxlen hcap'
  have hL3C : (encBits be p).length ≤ 3 * encChunkCount be p := by
    unfold encChunkCount
    omega
  have hCwh : encChunkCount be p ≤ img.width * img.height := by
    unfold encChunkCount
    rw [hEB]
    omega
  have hιwh : ∀ t, t < encChunkCount be p →
      visitIdx be.bit_dist (img.width * img.height) (encChunkCount be p) t <
        img.width * img.height := by
    intro t ht
    match hd : be.bit_dist with
    | .sequential => exact Nat.lt_of_lt_of_le ht hCwh
    | .linear len =>
      show t * (img.width * img.height - 1) / (encChunkCount be p - 1) < img.width * img.height
      have := get_linspace_nat_le (img.width * img.height - 1) (encChunkCount be p) t ht
      have : 0 < img.width * img.height := by positivity
      omega
  -- the written-value property, shared by both distributions
  have hvalP : ∀ (P : List Rgb),
      (∀ t, t < encChunkCount be p →
        P[t]? = pxs'[visitIdx be.bit_dist (img.width * img.height) (encChunkCount be p) t]?) →
      ∀ k b, (bytesToBits (p ++ END))[k]? = some b →
        ∃ c, ((P.map pixelChannels).flatten)[k]? =
          some (encVal (encSteps be.encoder k) b c) := by
    intro P hP k b hkb
    have hkL : k < (encBits be p).length := by
      rw [hEB]
      by_contra hc
      rw [List.getElem?_eq_none (by omega)] at hkb
      exact Option.noConfusion hkb
    have hkC : k / 3 < encChunkCount be p := by
      unfold encChunkCount
      omega
    have hr3 : k % 3 < 3 := Nat.mod_lt _ (by norm_num)
    have hk33 : 3 * (k / 3) + k % 3 = k := by omega
    have hchunk : (chunks3 (encBits be p))[k / 3]? =
        some (((encBits be p).drop (3 * (k / 3))).take 3) := by
      rw [chunks3_getElem?, if_pos (by omega)]
    have hι := hιwh (k / 3) hkC
    obtain ⟨px, hpx⟩ : ∃ px, img.pixels[visitIdx be.bit_dist (img.width * img.height)
        (encChunkCount be p) (k / 3)]? = some px :=
      ⟨_, List.getElem?_eq_getElem (by omega)⟩
    have hwr := hwrite (k / 3) _ hchunk
    rw [hpx] at hwr
    have hchr : (((encBits be p).drop (3 * (k / 3))).take 3)[k % 3]? = some b := by
      simp only [List.getElem?_take, if_pos hr3, List.getElem?_drop, hk33]
      rw [hEB]
      exact hkb
    have hchan := chunkWriteAux_channel_write (((encBits be p).drop (3 * (k / 3))).take 3)
      (encSteps be.encoder (3 * (k / 3))) 0 (k % 3) b px hchr (by omega)
    rw [Nat.zero_add] at hchan
    refine ⟨px.channel (k % 3), ?_⟩
    rw [show k = 3 * (k / 3) + k % 3 from by omega]
    rw [flatten_channels_getElem? P (k / 3) (k % 3) hr3]
    rw [hP (k / 3) hkC, hwr]
    simp only [Option.map_map, Option.map_some]
    show some ((chunkWriteAux (encSteps be.encoder (3 * (k / 3))) 0
      (((encBits be p).drop (3 * (k / 3))).take 3) px).channel (k % 3)) = _
    rw [hchan, encSteps_add, hk33]
  -- unfold roundTrip
  rw [roundTrip, henc]
  show (decode be ({ img with pixels := pxs' } : RgbImage)).map (fun r => r.1) = some (.ok p)
  rcases hdist with hd | hd
  · -- sequential
    have hstream := decode_seq_eq be { img with pixels := pxs' } hd
    have hval := hvalP pxs' (fun t ht => by rw [hd]; rfl)
    have hlenv : (bytesToBits (p ++ END)).length ≤ ((pxs'.map pixelChannels).flatten).length := by
      rw [flatten_channels_length]
      show (bytesToBits (p ++ END)).length ≤ 3 * pxs'.length
      rw [hlen, hpxlen]
      omega
    obtain ⟨e, hdec⟩ := decode_encoded_stream be { img with pixels := pxs' } p
      ((pxs'.map pixelChannels).flatten) hv hes hbytes hstream hlenv hval hearly
    rw [hdec]
    rfl
  · -- linear
    have himg' : ({ img with pixels := pxs' } : RgbImage).pixels.length =
        ({ img with pixels := pxs' } : RgbImage).width * ({ img with pixels := pxs' } : RgbImage).height := by
      show pxs'.length = img.width * img.height
      rw [hlen, hpxlen]
    have hstream := decode_lin_eq be { img with pixels := pxs' } (encChunkCount be p) hd hw hh himg'
    have hall : ∀ q ∈ get_linspace 0 ((img.width * img.height - 1 : ℕ) : ℚ) (encChunkCount be p),
        (({ img with pixels := pxs' } : RgbImage).getPixel?
          (q % ({ img with pixels := pxs' } : RgbImage).width)
          (q / ({ img with pixels := pxs' } : RgbImage).width)).isSome = true := by
      intro q hq
      have hqle := get_linspace_mem_le (img.width * img.height - 1) (encChunkCount be p) q hq
      have hwh0 : 0 < img.width * img.height := by positivity
      rw [getPixel?_mod_div { img with pixels := pxs' } q hw (by
        show q < img.width * img.height
        omega)]
      rw [List.getElem?_eq_getElem (by
        show q < pxs'.length
        rw [hlen, hpxlen]
        omega)]
      rfl
    have hP : ∀ t, t < encChunkCount be p →
        ((get_linspace 0 ((img.width * img.height - 1 : ℕ) : ℚ) (encChunkCount be p)).filterMap
          (fun q => ({ img with pixels := pxs' } : RgbImage).getPixel?
            (q % ({ img with pixels := pxs' } : RgbImage).width)
            (q / ({ img with pixels := pxs' } : RgbImage).width)))[t]? =
        pxs'[visitIdx be.bit_dist (img.width * img.height) (encChunkCount be p) t]? := by
      intro t ht
      rw [filterMap_getElem?_all_isSome _ _ hall t]
      rw [get_linspace_nat_getElem?, if_pos ht]
      show (({ img with pixels := pxs' } : RgbImage).getPixel?
        (t * (img.width * img.height - 1) / (encChunkCount be p - 1) % img.width)
        (t * (img.width * img.height - 1) / (encChunkCount be p - 1) / img.width)) = _
      rw [getPixel?_mod_div { img with pixels := pxs' } _ hw (by
        show t * (img.width * img.height - 1) / (encChunkCount be p - 1) < img.width * img.height
        have := hιwh t ht
        rw [hd] at this
        exact this)]
      rw [hd]
      rfl
    have hval := hvalP _ hP
    have hlenv : (bytesToBits (p ++ END)).length ≤
        ((((get_linspace 0 ((img.width * img.height - 1 : ℕ) : ℚ) (encChunkCount be p)).filterMap
          (fun q => ({ img with pixels := pxs' } : RgbImage).getPixel?
            (q % ({ img with pixels := pxs' } : RgbImage).width)
            (q / ({ img with pixels := pxs' } : RgbImage).width))).map pixelChannels).flatten).length := by
      rw [flatten_channels_length, filterMap_length_all_isSome _ _ hall, get_linspace_nat_length]
      rw [← hEB]
      omega
    obtain ⟨e, hdec⟩ := decode_encoded_stream be { img with pixels := pxs' } p _
      hv hes hbytes hstream hlenv hval hearly
    rw [hdec]
    rfl

/-! ### Concrete test fixtures -/

/-- The all-zero pixel. -/
def zeroPx : Rgb := ⟨0, 0, 0⟩

/-- An all-zero 4×4 image (the spec's concrete-scenario size). -/
def img4 : RgbImage := ⟨4, 4, List.replicate 16 zeroPx⟩

/-- An all-zero 5×5 image. -/
def img5 : RgbImage := ⟨5, 5, List.replicate 25 zeroPx⟩

/-- The default encoder configuration: Lsb strategy, sequential distribution
(terminator always on, per `BitEncoder::new`). -/
def beLsbSeq : BitEncoder := BitEncoder.new .lsb (some .sequential)

/-- An 11×1 image whose channel LSBs spell the 33-bit stream
`0` followed by the 32 terminator bits. -/
def img11 : RgbImage := ⟨11, 1,
  [⟨0, 0, 0⟩, ⟨1, 0, 0⟩, ⟨1, 0, 0⟩, ⟨0, 1, 0⟩, ⟨1, 0, 1⟩, ⟨0, 0, 0⟩, ⟨1, 0, 0⟩,
   ⟨0, 1, 1⟩, ⟨1, 0, 1⟩, ⟨0, 1, 0⟩, ⟨1, 1, 0⟩]⟩

/-! ### Claims -/

/-- **C2.** The random-significant-bit strategy draws one integer from
`[1, max]` per call (the generator advances by one) and converts it through
`BitMask::from`, which maps 1/2/4/8 to bit positions 0-3.  But for the
CLI-accepted configuration `max = 3`, the in-range draw 3 reaches the panic
arm of `BitMask::from` (`cannot create bitmask from val 3`), so the claimed
panic-freedom for max 1-4 fails in the code: `validate` accepts 3, the draw 3
is inside `[1, 3]`, and both encode and decode panic on it. -/
theorem C2_rsb_mask_panic :
    validateMaxBit 3 = true ∧ (1 ≤ 3 ∧ 3 ≤ 3) ∧
    bitMaskFrom 1 = some .one ∧ bitMaskFrom 2 = some .two ∧
    bitMaskFrom 4 = some .four ∧ bitMaskFrom 8 = some .eight ∧
    bitMaskFrom 3 = none ∧
    encodeStep (.rsb 3 (fun _ => 3) 0) 1 0 = none ∧
    decodeStep (.rsb 3 (fun _ => 3) 0) 0 = none :=
  ⟨rfl, ⟨by decide, by decide⟩, rfl, rfl, rfl, rfl, rfl, rfl, rfl⟩

/-- **C10.** Every encoder the program constructs has the end-sequence flag
set: `BitEncoder::new` hard-codes `end_seq: true` for any strategy and any
distribution, and both `exec::run` construction paths go through it. -/
theorem C10_end_seq_always (e : BitEncode) (bd : Option BitDistribution)
    (m : StegMethod) (mb : ℕ) (d : ℕ → ℕ) (dist : BitDistribution) :
    (BitEncoder.new e bd).end_seq = true ∧ (mkEncoder m mb d dist).end_seq = true := by
  refine ⟨rfl, ?_⟩
  cases m <;> rfl

/-- **C9.** Under the sequential distribution, visit `k` targets
`(k mod width, k / width)`; those coordinates recombine to flat raster index
`k`, are in range for `k < width·height`, and address exactly the `k`-th
stored pixel — raster order, left to right, top to bottom, wrapping rows. -/
theorem C9_sequential_raster (k : ℕ) (lin : List ℕ) (img : RgbImage)
    (hw : 0 < img.width) (hk : k < img.width * img.height) :
    visitCoord .sequential img.width lin k = some (k % img.width, k / img.width) ∧
    (k / img.width) * img.width + k % img.width = k ∧
    k % img.width < img.width ∧ k / img.width < img.height ∧
    img.getPixel? (k % img.width) (k / img.width) = img.pixels[k]? := by
  refine ⟨rfl, ?_, Nat.mod_lt _ hw, ?_, getPixel?_mod_div img k hw hk⟩
  · rw [Nat.mul_comm]
    exact Nat.div_add_mod _ _
  · rw [Nat.div_lt_iff_lt_mul hw]
    calc k < img.width * img.height := hk
    _ = img.height * img.width := Nat.mul_comm _ _

/-- Witness for C9 at `k = 5` in a 4×4 image. -/
theorem C9_sequential_raster_witness :
    visitCoord .sequential img4.width [] 5 = some (5 % img4.width, 5 / img4.width) ∧
    (5 / img4.width) * img4.width + 5 % img4.width = 5 ∧
    5 % img4.width < img4.width ∧ 5 / img4.width < img4.height ∧
    img4.getPixel? (5 % img4.width) (5 / img4.width) = img4.pixels[5]? :=
  C9_sequential_raster 5 [] img4 (by decide) (by decide)

/-- **C6.** The linear distribution's samples are `n` evenly spaced points on
`[0, width·height − 1]`: the first sample is 0, the last is the right
endpoint, consecutive samples differ by the constant step `b/(n−1)`; each is
floored to a pixel index.  Concretely, 3 samples over a 10-pixel index space
floor to {0, 4, 9} — no clustering at one end.  (`linspace` itself is an
external crate, modelled from the spec over exact rationals.) -/
theorem C6_linear_spacing :
    (∀ (b : ℚ) (n : ℕ), 2 ≤ n →
      (linspaceQ 0 b n)[0]? = some 0 ∧
      (linspaceQ 0 b n)[n - 1]? = some b ∧
      (∀ i x y, i + 1 < n → (linspaceQ 0 b n)[i]? = some x →
        (linspaceQ 0 b n)[i + 1]? = some y → y - x = b / ((n : ℚ) - 1))) ∧
    get_linspace 0 ((9 : ℕ) : ℚ) 3 = [0, 4, 9] := by
  constructor
  · intro b n hn
    have hn1 : ¬ n ≤ 1 := by omega
    have hstep : ∀ i : ℕ, i < n →
        (linspaceQ 0 b n)[i]? = some ((i : ℚ) * (b / ((n : ℚ) - 1))) := by
      intro i hi
      unfold linspaceQ
      simp only [if_neg hn1, sub_zero]
      rw [List.getElem?_map, List.getElem?_range hi]
      simp
    have hne : ((n : ℚ) - 1) ≠ 0 := by
      have : (2 : ℚ) ≤ (n : ℚ) := by exact_mod_cast hn
      intro hzero
      nlinarith
    refine ⟨?_, ?_, ?_⟩
    · rw [hstep 0 (by omega)]
      norm_num
    · rw [hstep (n - 1) (by omega)]
      congr 1
      have hcast : ((n - 1 : ℕ) : ℚ) = (n : ℚ) - 1 := by
        have h1 : (1 : ℕ) ≤ n := by omega
        push_cast [h1]
        ring
      rw [hcast]
      field_simp
    · intro i x y hi hx hy
      rw [hstep i (by omega)] at hx
      rw [hstep (i + 1) hi] at hy
      have hx' := Option.some_inj.1 hx
      have hy' := Option.some_inj.1 hy
      rw [← hx', ← hy']
      push_cast
      ring
  · rw [get_linspace_nat]
    decide

/-- Witness for C6's general part at `b = 9`, `n = 3`. -/
theorem C6_linear_spacing_witness :
    (linspaceQ 0 ((9 : ℕ) : ℚ) 3)[0]? = some 0 ∧
    (linspaceQ 0 ((9 : ℕ) : ℚ) 3)[3 - 1]? = some ((9 : ℕ) : ℚ) ∧
    (∀ i x y, i + 1 < 3 → (linspaceQ 0 ((9 : ℕ) : ℚ) 3)[i]? = some x →
      (linspaceQ 0 ((9 : ℕ) : ℚ) 3)[i + 1]? = some y → y - x = ((9 : ℕ) : ℚ) / ((3 : ℚ) - 1)) :=
  C6_linear_spacing.1 ((9 : ℕ) : ℚ) 3 (by norm_num)

/-- Witness for C1 (amended): payload `[0x41]` in the all-zero 4×4 image with
the default Lsb/sequential encoder round-trips exactly (the spec's concrete
scenario). -/
theorem C1_roundtrip_amended_witness : roundTrip beLsbSeq img4 [65] = some (.ok [65]) :=
  C1_roundtrip_amended beLsbSeq img4 [65] trivial rfl (by decide) (by decide) (by decide)
    (by decide) (by decide) (Or.inl rfl) (by decide)

/-- **C1 (counterexample).** The round trip fails as originally stated: the
4-byte payload `b"$TGV"` (the terminator itself) satisfies the capacity
precondition on a 5×5 image (64 bits ≤ 75), yet decoding the encoded image
returns the empty payload, because the decoder's trailing-32-bit check first
matches inside the payload. -/
theorem C1_counterexample :
    8 * (END : List ℕ).length + 32 ≤ 3 * (img5.width * img5.height) ∧
    roundTrip beLsbSeq img5 END = some (.ok []) ∧
    ([] : List ℕ) ≠ END :=
  ⟨by decide, by decide, by decide⟩

/-- The encode loop processes every chunk when it succeeds, so the returned
encoder state is the start state advanced by the total bit count. -/
theorem encodeVisitsGo_state (chunks : List (List ℕ)) :
    ∀ (w h : ℕ) (dist : BitDistribution) (lin : List ℕ) (enc : BitEncode) (s : ℕ)
      (pxs : List Rgb) (res : List Rgb × BitEncode),
      ValidEnc enc →
      encodeVisitsGo w h dist lin enc s chunks pxs = some res →
      res.2 = encSteps enc (totalLen chunks) := by
  induction chunks with
  | nil =>
    intro w h dist lin enc s pxs res hv hres
    rw [encodeVisitsGo] at hres
    have h2 : (pxs, enc) = res := Option.some_inj.1 hres
    rw [← h2]
    show enc = encSteps enc (totalLen [])
    rw [show totalLen [] = 0 from rfl, encSteps_zero]
  | cons chunk rest ih =>
    intro w h dist lin enc s pxs res hv hres
    rw [encodeVisitsGo] at hres
    rcases hvc : visitCoord dist w lin s with _ | ⟨x, y⟩
    · rw [hvc] at hres
      simp at hres
    · rw [hvc] at hres
      change (if x < w ∧ y < h then
        match pxs[y * w + x]? with
        | none => none
        | some px =>
          match encodeChunkBits enc 0 chunk px with
          | none => none
          | some (px', enc') =>
            encodeVisitsGo w h dist lin enc' (s + 1) rest (pxs.set (y * w + x) px')
        else none) = some res at hres
      by_cases hxy : x < w ∧ y < h
      · rw [if_pos hxy] at hres
        rcases hpx : pxs[y * w + x]? with _ | px
        · rw [hpx] at hres
          simp at hres
        · rw [hpx] at hres
          change (match encodeChunkBits enc 0 chunk px with
            | none => none
            | some (px', enc') =>
              encodeVisitsGo w h dist lin enc' (s + 1) rest (pxs.set (y * w + x) px')) =
            some res at hres
          rw [encodeChunkBits_eq chunk enc 0 px hv] at hres
          change encodeVisitsGo w h dist lin (encSteps enc chunk.length) (s + 1) rest
            (pxs.set (y * w + x) (chunkWriteAux enc 0 chunk px)) = some res at hres
          have hstate := ih w h dist lin (encSteps enc chunk.length) (s + 1)
            (pxs.set (y * w + x) (chunkWriteAux enc 0 chunk px)) res
            (validEnc_encSteps enc chunk.length hv) hres
          rw [hstate, encSteps_add]
          rw [show totalLen (chunk :: rest) = chunk.length + totalLen rest from by simp [totalLen]]
      · rw [if_neg hxy] at hres
        simp at hres

/-- **C7.** Lsb encoding is deterministic and stateless: running encode a
second time with the encoder state left by the first run (the `&mut self`
after one call) produces the identical result — byte-identical pixels and the
same state.  (This is false for Rsb, whose generator advances.) -/
theorem C7_lsb_determinism (be : BitEncoder) (img : RgbImage) (msg : List ℕ)
    (h : be.encoder = .lsb) :
    ((encode be img msg).bind fun pr => encode pr.2 img msg) = encode be img msg := by
  have key : ∀ out be', encode be img msg = some (out, be') → be' = be := by
    intro out be' henc
    rw [encode] at henc
    by_cases hwh : img.width * img.height = 0
    · rw [if_pos hwh] at henc
      simp at henc
    · rw [if_neg hwh] at henc
      rcases hgo : encodeVisitsGo img.width img.height be.bit_dist
          (get_linspace 0 ((img.width * img.height - 1 : ℕ) : ℚ)
            (((bytesToBits (if be.end_seq then msg ++ END else msg)).length + 2) / 3))
          be.encoder 0
          (chunks3 (bytesToBits (if be.end_seq then msg ++ END else msg))) img.pixels with
        _ | ⟨pxs, enc'⟩
      · rw [hgo] at henc
        simp at henc
      · rw [hgo] at henc
        change some (({ img with pixels := pxs } : RgbImage),
          ({ be with encoder := enc' } : BitEncoder)) = some (out, be') at henc
        have hstate := encodeVisitsGo_state _ _ _ _ _ be.encoder _ _ _ (by rw [h]; trivial) hgo
        have henc' : enc' = BitEncode.lsb := by
          rw [show enc' = ((pxs, enc') : List Rgb × BitEncode).2 from rfl, hstate, h]
          rfl
        have hpair := Option.some_inj.1 henc
        have hbe' : be' = { be with encoder := enc' } := (congrArg Prod.snd hpair).symm
        rw [hbe', henc', ← h]
  rcases henc : encode be img msg with _ | ⟨out, be'⟩
  · rfl
  · show encode be' img msg = some (out, be')
    rw [key out be' henc, henc, key out be' henc]

/-- Witness for C7: encoding `[0x41]` into the zero 4×4 image twice in
sequence yields the identical image and state. -/
theorem C7_lsb_determinism_witness :
    ((encode beLsbSeq img4 [65]).bind fun pr => encode pr.2 img4 [65]) =
      encode beLsbSeq img4 [65] :=
  C7_lsb_determinism beLsbSeq img4 [65] rfl

/-- **C3.** The reported capacity is exactly `⌊(3·W·H − 32)/8⌋` bytes (for
images holding at least the 32 terminator bits); `exec::run` accepts a payload
of exactly that many bytes — the pre-encode length check passes and encode
succeeds — while one more byte is rejected with the capacity-exceeded error
before encode is ever called. -/
theorem C3_capacity (img : RgbImage) (p q : List ℕ)
    (hw : 0 < img.width) (hh : 0 < img.height)
    (hpxlen : img.pixels.length = img.width * img.height)
    (h32 : 32 ≤ img.width * img.height * 3)
    (hp : p.length = (img.width * img.height * 3 - 32) / 8)
    (hq : q.length = (img.width * img.height * 3 - 32) / 8 + 1) :
    max_bytes img = some ((img.width * img.height * 3 - 32) / 8) ∧
    (img.width * img.height * 3 - 32) / 8 =
      Nat.floor (((img.width * img.height * 3 - 32 : ℕ) : ℚ) / ((8 : ℕ) : ℚ)) ∧
    (∃ out be', run_encode beLsbSeq img p = some (.ok out, be')) ∧
    (∃ be', run_encode beLsbSeq img q = some (.capacityExceeded, be')) := by
  have hEND : (END : List ℕ).length * 8 = 32 := rfl
  have hmb : max_bytes img = some ((img.width * img.height * 3 - 32) / 8) := by
    rw [max_bytes, hEND, if_neg (by omega)]
  have hEBlen : (encBits beLsbSeq p).length = 8 * p.length + 32 := by
    show (bytesToBits (p ++ END)).length = _
    rw [bytesToBits_length, List.length_append, show (END : List ℕ).length = 4 from rfl]
    omega
  refine ⟨hmb, ?_, ?_, ?_⟩
  · rw [Nat.floor_div_nat, Nat.floor_natCast]
  · obtain ⟨pxs', henc, _, _, _⟩ := encode_spec beLsbSeq img p trivial hw hh hpxlen
      (by rw [hEBlen]; omega)
    refine ⟨{ img with pixels := pxs' },
      { beLsbSeq with encoder := (encSteps beLsbSeq.encoder (encBits beLsbSeq p).length) }, ?_⟩
    rw [run_encode, hmb]
    show (if p.length > (img.width * img.height * 3 - 32) / 8 then
        some (RunResult.capacityExceeded, beLsbSeq)
      else match encode beLsbSeq img p with
        | none => none
        | some (out, be') => some (RunResult.ok out, be')) = _
    rw [if_neg (by omega), henc]
  · refine ⟨beLsbSeq, ?_⟩
    rw [run_encode, hmb]
    show (if q.length > (img.width * img.height * 3 - 32) / 8 then
        some (RunResult.capacityExceeded, beLsbSeq)
      else match encode beLsbSeq img q with
        | none => none
        | some (out, be') => some (RunResult.ok out, be')) = _
    rw [if_pos (by omega)]

/-- Witness for C3: the 4×4 image (48 channel bytes) has capacity 2; a 2-byte
payload encodes, a 3-byte payload is rejected. -/
theorem C3_capacity_witness :
    max_bytes img4 = some ((img4.width * img4.height * 3 - 32) / 8) ∧
    (img4.width * img4.height * 3 - 32) / 8 =
      Nat.floor (((img4.width * img4.height * 3 - 32 : ℕ) : ℚ) / ((8 : ℕ) : ℚ)) ∧
    (∃ out be', run_encode beLsbSeq img4 [65, 66] = some (.ok out, be')) ∧
    (∃ be', run_encode beLsbSeq img4 [1, 2, 3] = some (.capacityExceeded, be')) :=
  C3_capacity img4 [65, 66] [1, 2, 3] (by decide) (by decide) (by decide) (by decide)
    (by decide) (by decide)

/-- **C4.** If the whole scan of the configured pixel distribution is
exhausted and at no point the trailing bits of the accumulated stream equal
the 32-bit terminator pattern, decode fails with the `EncodingNotFound`
error and returns no payload bytes. -/
theorem C4_marker_absent (be : BitEncoder) (img : RgbImage) (vals : List ℕ)
    (hstream : decode be img =
      match decodeStreamGo endBits be.encoder [] vals with
      | none => none
      | some (bs, e) => decodeFinish be bs e)
    (hv : ValidEnc be.encoder) (hes : be.end_seq = true)
    (hno : ∀ k ≤ vals.length, has_end (decodedBits be.encoder (vals.take k)) endBits = false) :
    decode be img = some (.err .encodingNotFound,
      { be with encoder := encSteps be.encoder vals.length }) :=
  decode_no_end_err be img vals hstream hv hes hno

/-- Witness for C4: decoding the all-zero 4×4 image (no message ever encoded)
fails with `EncodingNotFound`. -/
theorem C4_marker_absent_witness :
    decode beLsbSeq img4 = some (.err .encodingNotFound,
      { beLsbSeq with
        encoder := (encSteps beLsbSeq.encoder ((img4.pixels.map pixelChannels).flatten).length) }) :=
  C4_marker_absent beLsbSeq img4 ((img4.pixels.map pixelChannels).flatten)
    (decode_seq_eq beLsbSeq img4 rfl) trivial rfl (by decide)

/-- **C5 (counterexample).** The claim that a post-terminator bit count not
divisible by 8 triggers a reconstruction (`Decoding`) error is false: on an
11×1 image whose channel LSBs are one `0` bit followed by the terminator
pattern, the scan matches the terminator after 33 bits, leaving 1 bit — not a
whole byte — yet decode returns `Ok [0]`, parsing the short chunk as a byte. -/
theorem C5_counterexample :
    (decodeSeqGo endBits BitEncode.lsb [] img11.pixels).map (fun r => r.1) =
      some (0 :: endBits) ∧
    has_end (0 :: endBits) endBits = true ∧
    (0 :: endBits).length - endBits.length = 1 ∧
    ¬ (8 ∣ 1) ∧
    (decode beLsbSeq img11).map (fun r => r.1) = some (.ok [0]) :=
  ⟨by decide, by decide, by decide, by decide, by decide⟩

/-- **C5 (amended).** When the terminator is first matched after `K` extracted
bits and the remaining `K − 32` bits are not divisible into whole bytes,
decode does not signal a reconstruction error: `u8::from_str_radix` succeeds
on the final short chunk of binary digits, so decode returns `Ok` with
`⌈(K − 32)/8⌉` bytes, the last parsed from fewer than 8 bits.  (The
`Decoding` error branch is unreachable for bitstreams of binary digits.) -/
theorem C5_short_chunk_ok (be : BitEncoder) (img : RgbImage) (vals : List ℕ) (K : ℕ)
    (hstream : decode be img =
      match decodeStreamGo endBits be.encoder [] vals with
      | none => none
      | some (bs, e) => decodeFinish be bs e)
    (hv : ValidEnc be.encoder) (hes : be.end_seq = true) (hK : K ≤ vals.length)
    (hend : has_end (decodedBits be.encoder (vals.take K)) endBits = true)
    (hno : ∀ k < K, has_end (decodedBits be.encoder (vals.take k)) endBits = false)
    (_hmod : ¬ (8 ∣ (K - 32))) :
    ∃ msg, decode be img = some (.ok msg, { be with encoder := encSteps be.encoder K }) ∧
      msg.length = (K - 32 + 7) / 8 := by
  obtain ⟨msg, hdec, _, hlen, _⟩ := decode_first_end_ok be img vals K hstream hv hes hK hend hno
  exact ⟨msg, hdec, hlen⟩

/-- Witness for C5 (amended): the 11×1 image matches the terminator at
`K = 33`; `33 − 32 = 1` is not a multiple of 8 and decode returns one byte. -/
theorem C5_short_chunk_ok_witness :
    ∃ msg, decode beLsbSeq img11 = some (.ok msg,
      { beLsbSeq with encoder := encSteps beLsbSeq.encoder 33 }) ∧
      msg.length = (33 - 32 + 7) / 8 :=
  C5_short_chunk_ok beLsbSeq img11 ((img11.pixels.map pixelChannels).flatten) 33
    (decode_seq_eq beLsbSeq img11 rfl) trivial rfl (by decide) (by decide) (by decide)
    (by decide)

/-- **C8.** Encode leaves the input grid untouched (it returns a fresh pixel
buffer built from it) and only the channels that received a bit differ: every
pixel whose flat index is never visited keeps its value, and on the final
visit, channels at stream positions past the bitstream length (the
`bitstream length mod 3` edge case) keep their input values. -/
theorem C8_frame (be : BitEncoder) (img : RgbImage) (msg : List ℕ)
    (hv : ValidEnc be.encoder) (hw : 0 < img.width) (hh : 0 < img.height)
    (hpxlen : img.pixels.length = img.width * img.height)
    (hcap : (encBits be msg).length ≤ 3 * (img.width * img.height)) :
    ∃ pxs',
      encode be img msg = some ({ img with pixels := pxs' },
        { be with encoder := encSteps be.encoder (encBits be msg).length }) ∧
      pxs'.length = img.pixels.length ∧
      (∀ j, (∀ t, t < encChunkCount be msg →
          visitIdx be.bit_dist (img.width * img.height) (encChunkCount be msg) t ≠ j) →
        pxs'[j]? = img.pixels[j]?) ∧
      (∀ t r, t < encChunkCount be msg → r < 3 → (encBits be msg).length ≤ 3 * t + r →
        ∃ px px',
          img.pixels[visitIdx be.bit_dist (img.width * img.height) (encChunkCount be msg) t]? =
            some px ∧
          pxs'[visitIdx be.bit_dist (img.width * img.height) (encChunkCount be msg) t]? =
            some px' ∧
          px'.channel r = px.channel r) := by
  obtain ⟨pxs', henc, hlen, hframe, hwrite⟩ := encode_spec be img msg hv hw hh hpxlen hcap
  refine ⟨pxs', henc, hlen, hframe, ?_⟩
  intro t r ht hr3 hLr
  have hCpos : 0 < encChunkCount be msg := by omega
  have h3t : 3 * t < (encBits be msg).length := by
    unfold encChunkCount at ht
    omega
  have hchunk : (chunks3 (encBits be msg))[t]? =
      some (((encBits be msg).drop (3 * t)).take 3) := by
    rw [chunks3_getElem?, if_pos h3t]
  have hι : visitIdx be.bit_dist (img.width * img.height) (encChunkCount be msg) t <
      img.width * img.height := by
    match hd : be.bit_dist with
    | .sequential =>
      show t < img.width * img.height
      unfold encChunkCount at ht
      omega
    | .linear len =>
      show t * (img.width * img.height - 1) / (encChunkCount be msg - 1) <
        img.width * img.height
      have := get_linspace_nat_le (img.width * img.height - 1) (encChunkCount be msg) t ht
      have hwh : 0 < img.width * img.height := by positivity
      omega
  obtain ⟨px, hpx⟩ : ∃ px, img.pixels[visitIdx be.bit_dist (img.width * img.height)
      (encChunkCount be msg) t]? = some px :=
    ⟨_, List.getElem?_eq_getElem (by omega)⟩
  have hwr := hwrite t _ hchunk
  rw [hpx] at hwr
  refine ⟨px, chunkWriteAux (encSteps be.encoder (3 * t)) 0
    (((encBits be msg).drop (3 * t)).take 3) px, hpx, hwr, ?_⟩
  apply chunkWriteAux_channel_frame
  right
  have hlen3 : (((encBits be msg).drop (3 * t)).take 3).length ≤ r := by
    simp only [List.length_take, List.length_drop]
    omega
  omega

/-- Witness for C8: payload `[0x41]` in the zero 4×4 image (40 bits, 14
visits; the last visit carries a single bit). -/
theorem C8_frame_witness :
    ∃ pxs',
      encode beLsbSeq img4 [65] = some ({ img4 with pixels := pxs' },
        { beLsbSeq with encoder := encSteps beLsbSeq.encoder (encBits beLsbSeq [65]).length }) ∧
      pxs'.length = img4.pixels.length ∧
      (∀ j, (∀ t, t < encChunkCount beLsbSeq [65] →
          visitIdx beLsbSeq.bit_dist (img4.width * img4.height) (encChunkCount beLsbSeq [65]) t ≠ j) →
        pxs'[j]? = img4.pixels[j]?) ∧
      (∀ t r, t < encChunkCount beLsbSeq [65] → r < 3 →
        (encBits beLsbSeq [65]).length ≤ 3 * t + r →
        ∃ px px',
          img4.pixels[visitIdx beLsbSeq.bit_dist (img4.width * img4.height)
            (encChunkCount beLsbSeq [65]) t]? = some px ∧
          pxs'[visitIdx beLsbSeq.bit_dist (img4.width * img4.height)
            (encChunkCount beLsbSeq [65]) t]? = some px' ∧
          px'.channel r = px.channel r) :=
  C8_frame beLsbSeq img4 [65] trivial (by decide) (by decide) (by decide) (by decide)

end Stgv
